import Mathlib

/-!
Verification development for the markitdown DOC-format bridge
(`converters/_doc_converter.py`) and the custom HTML-to-Markdown renderer
(`converters/_markdownify.py`).

The Python code is shallowly embedded: byte strings are `List Nat`
(each element a byte value), Python file streams are a byte list plus a
read position, the ambient effects of `DocConverter.convert` (temporary
directory lifecycle, subprocess launches, downstream converter calls) are
made explicit through an environment record and an observable trace, and
Python exceptions are an explicit outcome type.
-/

set_option maxRecDepth 8192

namespace MarkItDown

/-- Bytes of an ASCII string literal (convenience for writing byte strings). -/
def bs (s : String) : List Nat := s.data.map Char.toNat

/-- Result object returned by converters (`_base_converter.DocumentConverterResult`):
holds the produced markdown text. -/
structure DocumentConverterResult where
  markdown : String
deriving DecidableEq

/-- Python exceptions that can flow through `DocConverter.convert`. -/
inductive PyExn where
  | missingDependency (msg : String)
  | runtimeError (msg : String)
  | osError (msg : String)
deriving DecidableEq

/-- Python `str(e)` on an exception: its message. -/
def PyExn.str : PyExn → String
  | .missingDependency m => m
  | .runtimeError m => m
  | .osError m => m

/-- Outcome of a Python call: either a normal return or a raised exception. -/
inductive PyOutcome (α : Type) where
  | ok (a : α)
  | raised (e : PyExn)
deriving DecidableEq

/-- Declared metadata accompanying an input stream (`_stream_info.StreamInfo`):
Python uses `None` for an absent field. -/
structure StreamInfo where
  mimetype : Option String := none
  extension : Option String := none
deriving DecidableEq

/-- A seekable binary file stream: its byte contents and current read position. -/
structure PyStream where
  data : List Nat
  pos : Nat
deriving DecidableEq

/-- Compound-file (OLE) structural signature: the magic bytes
D0 CF 11 E0 A1 B1 1A E1. -/
def oleMagic : List Nat := [208, 207, 17, 224, 161, 177, 26, 225]

/-- Modelled from the spec: `olefile.isOleFile` is an external dependency (the
signature-detection library); per the spec it verifies that the input's next
bytes match the compound-file binary signature.  It reads 8 bytes from the
stream's current position and compares them with the magic. -/
def isOleFile (s : PyStream) : Bool × PyStream :=
  (((s.data.drop s.pos).take 8 == oleMagic),
   { s with pos := min (s.pos + 8) s.data.length })

/-- Modelled from the spec: `MISSING_DEPENDENCY_MESSAGE` lives in
`markitdown/_exceptions.py`, which is not among the provided sources; the spec
only requires a distinct error message carrying installation guidance for the
named converter, extension and feature. -/
def MISSING_DEPENDENCY_MESSAGE (converter ext feature : String) : String :=
  converter ++ " recognized the input as " ++ ext ++
    ", but the dependencies needed to read " ++ feature ++
    " files have not been installed. Install the missing dependencies to proceed."

/-- Behavior of the `subprocess.run` call on the external-tool path. -/
inductive SubprocBehavior where
  | success
  | exitNonzero (stderrBytes : Option String)
  | timedOut
deriving DecidableEq

/-- Environment of one `DocConverter.convert` call: import availability,
platform, and the behavior of everything outside the converter's own code
(temporary-directory naming, the staging copy, COM automation, the soffice
subprocess, the produced file, the downstream DocxConverter). -/
structure DocEnv where
  olefileAvailable : Bool
  docxConverterAvailable : Bool
  isWin32 : Bool
  tmpDirName : String
  copyFails : Option PyExn
  pywin32Available : Bool
  comFails : Option PyExn
  sofficePath : Option String
  subprocBehavior : SubprocBehavior
  docxFileExists : Bool
  docxFileBytes : List Nat
  downstreamResult : PyOutcome DocumentConverterResult
deriving DecidableEq

/-- One recorded `subprocess.run` invocation: argv and wall-clock timeout. -/
structure SubprocCall where
  argv : List String
  timeoutSeconds : Nat
deriving DecidableEq

/-- Observable side effects of one `DocConverter.convert` call. -/
structure DocTrace where
  tmpCreated : Bool
  tmpRemoved : Bool
  stagedBytes : Option (List Nat)
  subprocCalls : List SubprocCall
  docxCalls : List (List Nat × StreamInfo)
deriving DecidableEq

/-- Trace of a call that created no staging directory, launched no subprocess
and invoked no downstream converter. -/
def emptyTrace : DocTrace := ⟨false, false, none, [], []⟩

/-- Find the first occurrence of `c`, returning the pieces before and after it. -/
def splitOnFirst {α : Type} [DecidableEq α] (c : α) : List α → Option (List α × List α)
  | [] => none
  | b :: rest =>
    if b = c then some ([], rest)
    else
      match splitOnFirst c rest with
      | some p => some (b :: p.1, p.2)
      | none => none

/-- Find the last occurrence of `c`, returning the pieces before and after it. -/
def splitOnLast {α : Type} [DecidableEq α] (c : α) (s : List α) : Option (List α × List α) :=
  match splitOnFirst c s.reverse with
  | some p => some (p.2.reverse, p.1.reverse)
  | none => none

/-- Posix `os.path.dirname`: everything before the last slash, with trailing
slashes stripped unless the head is all slashes. -/
def dirname (p : String) : String :=
  match splitOnLast '/' p.data with
  | none => ""
  | some d =>
    let head := d.1 ++ ['/']
    if head.all (fun ch => ch = '/') then String.mk head
    else String.mk ((head.reverse.dropWhile (fun ch => ch = '/')).reverse)

/-- Posix `os.path.splitext(p)[0]`: drop the extension after the last dot of
the basename, where leading dots of the basename do not start an extension. -/
def splitextBase (p : String) : String :=
  let cs := p.data
  let dirBase : List Char × List Char :=
    match splitOnLast '/' cs with
    | some d => (d.1 ++ ['/'], d.2)
    | none => ([], cs)
  let lead := dirBase.2.takeWhile (fun ch => ch = '.')
  let rest := dirBase.2.drop lead.length
  match splitOnLast '.' rest with
  | some r => String.mk (dirBase.1 ++ lead ++ r.1)
  | none => String.mk cs

/-- Python `str.lower()` on a string (ASCII-range model, matching the ASCII
inputs relevant here). -/
def pyLowerStr (s : String) : String := String.mk (s.data.map Char.toLower)

/-- MIME type markers accepted by `DocConverter` (`ACCEPTED_MIME_TYPE_PREFIXES`). -/
def ACCEPTED_MIME_TYPE_PREFIXES : List String :=
  ["application/msword", "application/vnd.ms-word"]

/-- File extensions accepted by `DocConverter` (`ACCEPTED_FILE_EXTENSIONS`). -/
def ACCEPTED_FILE_EXTENSIONS : List String := [".doc"]

/-- Embedding of `DocConverter.accepts`: metadata-only matching on the lowered
declared extension and mimetype.  The file stream argument is taken (as in the
source) but never consulted. -/
def DocConverter.accepts (_file_stream : PyStream) (stream_info : StreamInfo) : Bool :=
  let mimetype := pyLowerStr (stream_info.mimetype.getD "")
  let ext := pyLowerStr (stream_info.extension.getD "")
  if ACCEPTED_FILE_EXTENSIONS.contains ext then true
  else ACCEPTED_MIME_TYPE_PREFIXES.any (fun p => p.isPrefixOf mimetype)

/-- Embedding of `DocConverter._convert_to_docx_windows`: raises a
MissingDependencyException when pywin32 is absent, otherwise drives Word COM
automation (its failures are environment-determined) and returns the output
path `splitext(in_file)[0] + ".docx"`. -/
def DocConverter._convert_to_docx_windows (env : DocEnv) (doc_path : String) :
    PyOutcome String :=
  if env.pywin32Available = false then
    .raised (.missingDependency (MISSING_DEPENDENCY_MESSAGE "DocConverter" ".doc" "doc (pywin32)"))
  else
    match env.comFails with
    | some e => .raised e
    | none => .ok (splitextBase doc_path ++ ".docx")

/-- Embedding of `DocConverter._find_soffice`: the result of probing the search
path for `soffice`/`libreoffice` is environment-determined. -/
def DocConverter._find_soffice (env : DocEnv) : Option String := env.sofficePath

/-- Embedding of `DocConverter._convert_to_docx_unix`: raises a
MissingDependencyException when no soffice executable is found, otherwise runs
the headless conversion subprocess with a 60 second timeout; non-zero exit or
timeout is re-raised as a RuntimeError.  Also reports the subprocess calls
performed. -/
def DocConverter._convert_to_docx_unix (env : DocEnv) (doc_path : String) :
    PyOutcome String × List SubprocCall :=
  match DocConverter._find_soffice env with
  | none =>
    (.raised (.missingDependency
        ("LibreOffice/Soffice is not installed or not in the system's PATH. " ++
         "Please install it to convert .doc files.")), [])
  | some soffice_path =>
    let call : SubprocCall :=
      ⟨[soffice_path, "--headless", "--convert-to", "docx", "--outdir",
        dirname doc_path, doc_path], 60⟩
    match env.subprocBehavior with
    | .success => (.ok (splitextBase doc_path ++ ".docx"), [call])
    | .exitNonzero stderrB =>
      let error_message :=
        match stderrB with
        | some s => if s = "" then "Unknown error." else s
        | none => "Unknown error."
      (.raised (.runtimeError ("LibreOffice conversion failed: " ++ error_message)), [call])
    | .timedOut =>
      (.raised (.runtimeError "LibreOffice conversion timed out after 60 seconds."), [call])

/-- The corrected open-format metadata handed to the downstream DocxConverter. -/
def docxStreamInfo : StreamInfo :=
  { mimetype := some "application/vnd.openxmlformats-officedocument.wordprocessingml.document"
    extension := some ".docx" }

/-- Embedding of `DocConverter.convert`.  Mirrors the source's control flow:
dependency checks, seek + OLE signature check, seek + staging copy (outside
the `try`), platform-gated backend, downstream DocxConverter call inside a
`try`/`except Exception`/`finally shutil.rmtree` block.  Returns the outcome
together with the observable trace. -/
def DocConverter.convert (env : DocEnv) (file_stream : PyStream)
    (_stream_info : StreamInfo) : PyOutcome DocumentConverterResult × DocTrace :=
  if env.olefileAvailable = false then
    (.raised (.missingDependency (MISSING_DEPENDENCY_MESSAGE "DocConverter" ".doc" "doc (olefile)")),
     emptyTrace)
  else if env.docxConverterAvailable = false then
    (.ok ⟨"Error: The DocxConverter is not available. Please ensure it is installed."⟩,
     emptyTrace)
  else
    let s1 : PyStream := { file_stream with pos := 0 }
    let checked := isOleFile s1
    if checked.1 = false then
      (.ok ⟨"Error: Not a valid Microsoft Word DOC file."⟩, emptyTrace)
    else
      let s2 : PyStream := { checked.2 with pos := 0 }
      let tmp_dir := env.tmpDirName
      let doc_path := tmp_dir ++ "/input.doc"
      match env.copyFails with
      | some e =>
        (.raised e, { emptyTrace with tmpCreated := true })
      | none =>
        let staged := s2.data.drop s2.pos
        let backend : PyOutcome String × List SubprocCall :=
          if env.isWin32 then (DocConverter._convert_to_docx_windows env doc_path, [])
          else DocConverter._convert_to_docx_unix env doc_path
        let inner : PyOutcome DocumentConverterResult × List (List Nat × StreamInfo) :=
          match backend.1 with
          | .raised e => (.raised e, [])
          | .ok docx_path =>
            if docx_path = "" ∨ env.docxFileExists = false then
              (.ok ⟨"Error: Failed to convert DOC to DOCX."⟩, [])
            else
              (env.downstreamResult, [(env.docxFileBytes, docxStreamInfo)])
        let outcome : PyOutcome DocumentConverterResult :=
          match inner.1 with
          | .raised e => .ok ⟨"Error converting DOC file: " ++ e.str⟩
          | .ok r => .ok r
        (outcome,
         { tmpCreated := true, tmpRemoved := true, stagedBytes := some staged,
           subprocCalls := backend.2, docxCalls := inner.2 })

/-- Substring containment, used to state that an error message carries the
words "timed out". -/
def containsText (needle hay : String) : Prop := ∃ pre post, hay = pre ++ needle ++ post

/-- A fully working environment: all dependencies importable, soffice found,
subprocess succeeds, docx produced, downstream converter returns markdown. -/
def envOk : DocEnv :=
  { olefileAvailable := true
    docxConverterAvailable := true
    isWin32 := false
    tmpDirName := "/tmp/tmpabc123"
    copyFails := none
    pywin32Available := true
    comFails := none
    sofficePath := some "/usr/bin/soffice"
    subprocBehavior := .success
    docxFileExists := true
    docxFileBytes := [80, 75, 3, 4]
    downstreamResult := .ok ⟨"# Converted document"⟩ }

/-- Helper: a path with the ".docx" suffix appended is never the empty string. -/
theorem append_docx_ne_empty (s : String) : s ++ ".docx" ≠ "" := by
  intro h
  have hlen : (s ++ ".docx").length = ("" : String).length := by rw [h]
  rw [String.length_append] at hlen
  have h5 : (".docx" : String).length = 5 := rfl
  have h0 : ("" : String).length = 0 := rfl
  omega

/-- Environment in which the staging copy (the `shutil.copyfileobj` into the
freshly created temporary directory) raises an OSError. -/
def envCopyFail : DocEnv :=
  { envOk with copyFails := some (.osError "read error while staging input") }

/-- Environment on the Windows path with pywin32 absent. -/
def envWinNoPywin : DocEnv :=
  { envOk with isWin32 := true, pywin32Available := false }

/-- Environment in which the olefile dependency is absent. -/
def envNoOlefile : DocEnv :=
  { envOk with olefileAvailable := false }

/-- Environment on the unix path whose soffice subprocess exceeds the timeout. -/
def envTimeout : DocEnv :=
  { envOk with subprocBehavior := .timedOut }

/-- C1, counterexample: the claim "every invocation of `DocConverter.convert`
that creates a staging directory deletes it on every exit path, including
exceptions raised at any point after its creation" is false: the staging copy
(`open`/`shutil.copyfileobj`, source lines 89-90) runs after `mkdtemp` but
before the `try` block, so an exception raised there propagates with the
staging directory left behind. -/
theorem c1_counterexample :
    ¬ (∀ (env : DocEnv) (stream : PyStream) (si : StreamInfo),
        (DocConverter.convert env stream si).2.tmpCreated = true →
        (DocConverter.convert env stream si).2.tmpRemoved = true) := by
  intro h
  have h2 := h envCopyFail ⟨oleMagic, 0⟩ {} rfl
  have h3 : (DocConverter.convert envCopyFail ⟨oleMagic, 0⟩
      ({} : StreamInfo)).2.tmpRemoved = false := rfl
  rw [h3] at h2
  exact Bool.noConfusion h2

/-- C1, amended: whenever the staging copy into the temporary directory
completes without raising, the staging directory is recursively deleted before
`DocConverter.convert` returns or raises, on every exit path (success, failure
result, or exception inside the guarded conversion block). -/
theorem c1_theorem (env : DocEnv) (stream : PyStream) (si : StreamInfo)
    (h : env.copyFails = none) :
    (DocConverter.convert env stream si).2.tmpCreated = true →
    (DocConverter.convert env stream si).2.tmpRemoved = true := by
  unfold DocConverter.convert
  rw [h]
  intro hc
  by_cases h1 : env.olefileAvailable = false
  · simp [h1, emptyTrace] at hc
  by_cases h2 : env.docxConverterAvailable = false
  · simp [h1, h2, emptyTrace] at hc
  by_cases h3 : (isOleFile { data := stream.data, pos := 0 }).1 = false
  · simp [h1, h2, h3, emptyTrace] at hc
  · simp [h1, h2, h3]

/-- C1 witness: the amended theorem applied at a concrete working environment
and a concrete OLE stream. -/
theorem c1_witness :
    envOk.copyFails = none ∧
    (DocConverter.convert envOk ⟨oleMagic, 0⟩ ({} : StreamInfo)).2.tmpRemoved = true :=
  ⟨rfl, c1_theorem envOk ⟨oleMagic, 0⟩ {} rfl rfl⟩

/-- C2: when the dependencies are importable and the stream's first bytes do
not match the OLE signature, `DocConverter.convert` returns the descriptive
failure result and performs no further work: the trace is empty (no staging
directory created, no subprocess launched, no downstream converter invoked). -/
theorem c2_theorem (env : DocEnv) (stream : PyStream) (si : StreamInfo)
    (h1 : env.olefileAvailable = true) (h2 : env.docxConverterAvailable = true)
    (h3 : stream.data.take 8 ≠ oleMagic) :
    DocConverter.convert env stream si =
      (.ok ⟨"Error: Not a valid Microsoft Word DOC file."⟩, emptyTrace) := by
  unfold DocConverter.convert
  simp [h1, h2, isOleFile, h3]

/-- C2 witness: concrete non-OLE stream in the fully working environment. -/
theorem c2_witness :
    (([0, 1, 2, 3] : List Nat).take 8 ≠ oleMagic) ∧
    DocConverter.convert envOk ⟨[0, 1, 2, 3], 7⟩ ({} : StreamInfo) =
      (.ok ⟨"Error: Not a valid Microsoft Word DOC file."⟩, emptyTrace) :=
  ⟨by decide, c2_theorem envOk ⟨[0, 1, 2, 3], 7⟩ {} rfl rfl (by decide)⟩

/-- C3, counterexample: the claim that missing-dependency errors on the Windows
path (pywin32 absent) are raised to the caller is false: the concrete call
below returns an error-message result instead of raising, because the
MissingDependencyException raised inside `_convert_to_docx_windows` is caught
by the broad `except Exception` handler of `convert`. -/
theorem c3_counterexample :
    (DocConverter.convert envWinNoPywin ⟨oleMagic, 0⟩ ({} : StreamInfo)).1 =
      .ok ⟨"Error converting DOC file: " ++
            MISSING_DEPENDENCY_MESSAGE "DocConverter" ".doc" "doc (pywin32)"⟩ := rfl

/-- C3, amended: the olefile-missing error is raised to the caller of `convert`
as a distinct MissingDependencyException carrying installation guidance; the
pywin32-missing error on the Windows path is raised as a
MissingDependencyException inside the guarded conversion block, but the broad
`except Exception` handler converts it into an error-message result carrying
the same guidance text, so it is not propagated to the caller. -/
theorem c3_theorem :
    (∀ (env : DocEnv) (stream : PyStream) (si : StreamInfo),
      env.olefileAvailable = false →
      (DocConverter.convert env stream si).1 =
        .raised (.missingDependency
          (MISSING_DEPENDENCY_MESSAGE "DocConverter" ".doc" "doc (olefile)"))) ∧
    (∀ (env : DocEnv) (stream : PyStream) (si : StreamInfo),
      env.olefileAvailable = true → env.docxConverterAvailable = true →
      stream.data.take 8 = oleMagic → env.copyFails = none →
      env.isWin32 = true → env.pywin32Available = false →
      (DocConverter.convert env stream si).1 =
        .ok ⟨"Error converting DOC file: " ++
              MISSING_DEPENDENCY_MESSAGE "DocConverter" ".doc" "doc (pywin32)"⟩) := by
  constructor
  · intro env stream si h
    unfold DocConverter.convert
    simp [h]
  · intro env stream si h1 h2 h3 h4 h5 h6
    unfold DocConverter.convert
    rw [h4]
    simp [h1, h2, isOleFile, h3, h5, DocConverter._convert_to_docx_windows, h6, PyExn.str]

/-- C3 witness: both conjuncts of the amended claim instantiated concretely. -/
theorem c3_witness :
    (DocConverter.convert envNoOlefile ⟨oleMagic, 0⟩ ({} : StreamInfo)).1 =
      .raised (.missingDependency
        (MISSING_DEPENDENCY_MESSAGE "DocConverter" ".doc" "doc (olefile)")) ∧
    (DocConverter.convert envWinNoPywin ⟨oleMagic, 0⟩ ({} : StreamInfo)).1 =
      .ok ⟨"Error converting DOC file: " ++
            MISSING_DEPENDENCY_MESSAGE "DocConverter" ".doc" "doc (pywin32)"⟩ :=
  ⟨c3_theorem.1 envNoOlefile ⟨oleMagic, 0⟩ {} rfl,
   c3_theorem.2 envWinNoPywin ⟨oleMagic, 0⟩ {} rfl rfl rfl rfl rfl rfl⟩

/-- C5: on the external-tool path, when the soffice subprocess exceeds the
60-second timeout, `convert` returns a failure result whose message contains
the words "timed out", and the staging directory is still removed. -/
theorem c5_theorem (env : DocEnv) (stream : PyStream) (si : StreamInfo) (sp : String)
    (h1 : env.olefileAvailable = true) (h2 : env.docxConverterAvailable = true)
    (h3 : stream.data.take 8 = oleMagic) (h4 : env.copyFails = none)
    (h5 : env.isWin32 = false) (h6 : env.sofficePath = some sp)
    (h7 : env.subprocBehavior = .timedOut) :
    (DocConverter.convert env stream si).1 =
      .ok ⟨"Error converting DOC file: LibreOffice conversion timed out after 60 seconds."⟩ ∧
    containsText "timed out"
      "Error converting DOC file: LibreOffice conversion timed out after 60 seconds." ∧
    (DocConverter.convert env stream si).2.tmpRemoved = true := by
  refine ⟨?_, ⟨"Error converting DOC file: LibreOffice conversion ",
               " after 60 seconds.", rfl⟩, ?_⟩
  · unfold DocConverter.convert
    rw [h4]
    simp [h1, h2, isOleFile, h3, h5, DocConverter._convert_to_docx_unix,
          DocConverter._find_soffice, h6, h7, PyExn.str]
  · unfold DocConverter.convert
    rw [h4]
    simp [h1, h2, isOleFile, h3]

/-- C5 witness: the timeout environment at a concrete OLE stream. -/
theorem c5_witness :
    (DocConverter.convert envTimeout ⟨oleMagic, 0⟩ ({} : StreamInfo)).1 =
      .ok ⟨"Error converting DOC file: LibreOffice conversion timed out after 60 seconds."⟩ ∧
    (DocConverter.convert envTimeout ⟨oleMagic, 0⟩ ({} : StreamInfo)).2.tmpRemoved = true := by
  have h := c5_theorem envTimeout ⟨oleMagic, 0⟩ {} "/usr/bin/soffice"
    rfl rfl rfl rfl rfl rfl rfl
  exact ⟨h.1, h.2.2⟩

/-- C6: whenever the backend conversion succeeds and the produced file exists,
`convert` invokes the downstream DocxConverter exactly once, with the produced
docx bytes and the corrected open-format metadata `docxStreamInfo` (the
explicit DOCX MIME type and ".docx" extension, independent of the original
input's declared stream info), and returns whatever result that converter
produces. -/
theorem c6_theorem (env : DocEnv) (stream : PyStream) (si : StreamInfo)
    (r : DocumentConverterResult)
    (h1 : env.olefileAvailable = true) (h2 : env.docxConverterAvailable = true)
    (h3 : stream.data.take 8 = oleMagic) (h4 : env.copyFails = none)
    (hplat : (env.isWin32 = true ∧ env.pywin32Available = true ∧ env.comFails = none) ∨
             (env.isWin32 = false ∧ (∃ sp, env.sofficePath = some sp) ∧
              env.subprocBehavior = .success))
    (hex : env.docxFileExists = true)
    (hr : env.downstreamResult = .ok r) :
    (DocConverter.convert env stream si).1 = .ok r ∧
    (DocConverter.convert env stream si).2.docxCalls =
      [(env.docxFileBytes, docxStreamInfo)] := by
  rcases hplat with ⟨hw, hp, hc⟩ | ⟨hw, ⟨sp, hsp⟩, hsub⟩
  · constructor <;>
    · unfold DocConverter.convert
      rw [h4]
      simp [h1, h2, isOleFile, h3, hw, DocConverter._convert_to_docx_windows, hp, hc,
            hex, hr, append_docx_ne_empty]
  · constructor <;>
    · unfold DocConverter.convert
      rw [h4]
      simp [h1, h2, isOleFile, h3, hw, DocConverter._convert_to_docx_unix,
            DocConverter._find_soffice, hsp, hsub, hex, hr, append_docx_ne_empty]

/-- C6 witness: the fully working environment at a concrete OLE stream whose
original stream info declares the legacy mimetype and extension. -/
theorem c6_witness :
    (DocConverter.convert envOk ⟨oleMagic, 0⟩
        ⟨some "application/msword", some ".doc"⟩).1 = .ok ⟨"# Converted document"⟩ ∧
    (DocConverter.convert envOk ⟨oleMagic, 0⟩
        ⟨some "application/msword", some ".doc"⟩).2.docxCalls =
      [([80, 75, 3, 4], docxStreamInfo)] :=
  c6_theorem envOk ⟨oleMagic, 0⟩ ⟨some "application/msword", some ".doc"⟩
    ⟨"# Converted document"⟩ rfl rfl rfl rfl
    (Or.inr ⟨rfl, ⟨"/usr/bin/soffice", rfl⟩, rfl⟩) rfl rfl

/-- C9: `accepts` returns true exactly when the lowered declared extension is
".doc" or the lowered declared mimetype starts with one of the accepted
prefixes; its answer is a function of the declared stream info alone (the file
stream is never read and no dependency availability is consulted); and it can
return true on an input for which `convert` can only raise a dependency
error. -/
theorem c9_theorem :
    (∀ (fs : PyStream) (si : StreamInfo),
        DocConverter.accepts fs si = true ↔
          (pyLowerStr (si.extension.getD "") = ".doc" ∨
           "application/msword".isPrefixOf (pyLowerStr (si.mimetype.getD "")) ∨
           "application/vnd.ms-word".isPrefixOf (pyLowerStr (si.mimetype.getD "")))) ∧
    (∀ (fs fs' : PyStream) (si : StreamInfo),
        DocConverter.accepts fs si = DocConverter.accepts fs' si) ∧
    (∃ (env : DocEnv) (fs : PyStream) (si : StreamInfo) (e : PyExn),
        DocConverter.accepts fs si = true ∧
        (DocConverter.convert env fs si).1 = .raised e) := by
  refine ⟨?_, fun fs fs' si => rfl, ?_⟩
  · intro fs si
    unfold DocConverter.accepts
    by_cases he : pyLowerStr (si.extension.getD "") = ".doc"
    · simp [ACCEPTED_FILE_EXTENSIONS, he]
    · simp [ACCEPTED_FILE_EXTENSIONS, ACCEPTED_MIME_TYPE_PREFIXES, he]
  · refine ⟨envNoOlefile, ⟨[], 0⟩, ⟨none, some ".doc"⟩,
      .missingDependency (MISSING_DEPENDENCY_MESSAGE "DocConverter" ".doc" "doc (olefile)"),
      by decide, ?_⟩
    unfold DocConverter.convert
    simp [envNoOlefile, envOk]

/-- C9 witness: the characterization applied at a concrete stream info. -/
theorem c9_witness :
    DocConverter.accepts ⟨[1, 2, 3], 0⟩ ⟨none, some ".DOC"⟩ = true :=
  (c9_theorem.1 ⟨[1, 2, 3], 0⟩ ⟨none, some ".DOC"⟩).mpr (Or.inl rfl)

/-- C10: the result of `DocConverter.convert` (outcome and full trace,
including the bytes copied into the staging file) does not depend on the
stream's read position at call time, because the stream is seeked to offset 0
before the signature check and again before the staging copy. -/
theorem c10_theorem (env : DocEnv) (d : List Nat) (p p' : Nat) (si : StreamInfo) :
    DocConverter.convert env ⟨d, p⟩ si = DocConverter.convert env ⟨d, p'⟩ si := rfl

end MarkItDown

namespace Markdownify

open MarkItDown (bs splitOnFirst splitOnLast)

/-! Byte-level model of the Python strings manipulated by
`_CustomMarkdownify`.  A Python string is represented by its UTF-8 bytes
(`List Nat`); all the URL machinery of `urllib.parse` used by `convert_a`
(`urlparse`, `urlunparse`, `quote`, `unquote`) is modelled at that byte
level, following the CPython implementation. -/

/-- Uppercase ASCII letter byte. -/
def isUpperB (b : Nat) : Bool := decide (65 ≤ b ∧ b ≤ 90)

/-- Lowercase ASCII letter byte. -/
def isLowerB (b : Nat) : Bool := decide (97 ≤ b ∧ b ≤ 122)

/-- ASCII letter byte. -/
def isAlphaB (b : Nat) : Bool := isUpperB b || isLowerB b

/-- ASCII digit byte. -/
def isDigitB (b : Nat) : Bool := decide (48 ≤ b ∧ b ≤ 57)

/-- ASCII alphanumeric byte. -/
def isAlnumB (b : Nat) : Bool := isAlphaB b || isDigitB b

/-- ASCII lowercasing of one byte. -/
def lowerB (b : Nat) : Nat := if isUpperB b then b + 32 else b

/-- ASCII lowercasing of a byte string. -/
def lowerBytes (s : List Nat) : List Nat := s.map lowerB

/-- Characters allowed in a URL scheme (`urllib.parse.scheme_chars`):
letters, digits, plus, minus, dot. -/
def schemeCharB (b : Nat) : Bool := isAlnumB b || b = 43 || b = 45 || b = 46

/-- CPython `urlsplit` sanitization, step 1: strip leading C0-control-or-space
bytes. -/
def lstripC0Space : List Nat → List Nat
  | [] => []
  | b :: rest => if b ≤ 32 then lstripC0Space rest else b :: rest

/-- CPython `urlsplit` sanitization, step 2: remove every tab, CR and LF. -/
def removeTabCrLf : List Nat → List Nat
  | [] => []
  | b :: rest =>
    if b = 9 ∨ b = 10 ∨ b = 13 then removeTabCrLf rest else b :: removeTabCrLf rest

/-- CPython `urlsplit` scheme recognition: the part before the first colon is
a scheme when it is nonempty, starts with an ASCII letter and consists of
scheme characters; the scheme is lowercased.  Otherwise the URL is left
untouched. -/
def extractScheme (url : List Nat) : List Nat × List Nat :=
  match splitOnFirst 58 url with
  | some p =>
    if !p.1.isEmpty && isAlphaB (p.1.headD 0) && p.1.all schemeCharB
    then (lowerBytes p.1, p.2)
    else ([], url)
  | none => ([], url)

/-- Bytes terminating the network-location component: slash, question mark,
hash. -/
def netlocStop (b : Nat) : Bool := b = 47 || b = 63 || b = 35

/-- CPython `_splitnetloc`: the netloc runs until the first of `/?#`; the
delimiter stays with the remainder. -/
def splitNetloc : List Nat → List Nat × List Nat
  | [] => ([], [])
  | b :: rest =>
    if netlocStop b then ([], b :: rest)
    else
      let p := splitNetloc rest
      (b :: p.1, p.2)

/-- CPython `urlsplit` bracket check: a netloc containing one of `[`/`]`
without the other raises `ValueError("Invalid IPv6 URL")`. -/
def bracketMismatch (n : List Nat) : Bool := (n.contains 91) != (n.contains 93)

/-- Result of `urllib.parse.urlsplit`. -/
structure UrlSplitResult where
  scheme : List Nat
  netloc : List Nat
  path : List Nat
  query : List Nat
  fragment : List Nat
deriving DecidableEq

/-- Byte-level model of CPython `urllib.parse.urlsplit` (with
`allow_fragments=True`): sanitize, recognize the scheme, split the netloc
after a leading `//` (checking brackets), then split off fragment (first `#`)
and query (first `?`).  `none` models a raised `ValueError`. -/
def urlsplitB (url0 : List Nat) : Option UrlSplitResult :=
  let url1 := removeTabCrLf (lstripC0Space url0)
  let sp := extractScheme url1
  let np : List Nat × List Nat :=
    if sp.2.take 2 = [47, 47] then splitNetloc (sp.2.drop 2) else ([], sp.2)
  if bracketMismatch np.1 then none
  else
    let fp : List Nat × List Nat :=
      match splitOnFirst 35 np.2 with
      | some q => q
      | none => (np.2, [])
    let pq : List Nat × List Nat :=
      match splitOnFirst 63 fp.1 with
      | some q => q
      | none => (fp.1, [])
    some ⟨sp.1, np.1, pq.1, pq.2, fp.2⟩

/-- Schemes for which `urlparse` separates path parameters
(`urllib.parse.uses_params`). -/
def usesParamsList : List (List Nat) :=
  [bs "", bs "ftp", bs "hdl", bs "prospero", bs "http", bs "imap", bs "https",
   bs "shttp", bs "rtsp", bs "rtsps", bs "rtspu", bs "sip", bs "sips", bs "mms",
   bs "sftp", bs "tel"]

/-- CPython `_splitparams`: split parameters at the first semicolon at or
after the last slash (or the first semicolon overall when there is no slash);
when no such semicolon exists the path is returned whole. -/
def splitParamsFn (u : List Nat) : List Nat × List Nat :=
  match splitOnLast 47 u with
  | some d =>
    (match splitOnFirst 59 d.2 with
     | some q => (d.1 ++ 47 :: q.1, q.2)
     | none => (u, []))
  | none =>
    (match splitOnFirst 59 u with
     | some q => (q.1, q.2)
     | none => (u, []))

/-- Result of `urllib.parse.urlparse`. -/
structure UrlParseResult where
  scheme : List Nat
  netloc : List Nat
  path : List Nat
  params : List Nat
  query : List Nat
  fragment : List Nat
deriving DecidableEq

/-- Byte-level model of CPython `urllib.parse.urlparse`: `urlsplit` followed
by parameter splitting for schemes in `uses_params` whose path contains a
semicolon. -/
def urlparseB (url : List Nat) : Option UrlParseResult :=
  match urlsplitB url with
  | none => none
  | some r =>
    if usesParamsList.contains r.scheme && r.path.contains 59 then
      let pp := splitParamsFn r.path
      some ⟨r.scheme, r.netloc, pp.1, pp.2, r.query, r.fragment⟩
    else
      some ⟨r.scheme, r.netloc, r.path, [], r.query, r.fragment⟩

/-- Schemes whose URLs use a network location
(`urllib.parse.uses_netloc`). -/
def usesNetlocList : List (List Nat) :=
  [bs "", bs "ftp", bs "http", bs "gopher", bs "nntp", bs "telnet", bs "imap",
   bs "wais", bs "file", bs "mms", bs "https", bs "shttp", bs "snews",
   bs "prospero", bs "rtsp", bs "rtsps", bs "rtspu", bs "rsync", bs "svn",
   bs "svn+ssh", bs "sftp", bs "nfs", bs "git", bs "git+ssh", bs "ws", bs "wss"]

/-- Byte-level model of CPython `urllib.parse.urlunsplit`: the `//` marker is
re-emitted when the netloc is nonempty, or when the scheme uses a netloc and
the path does not already begin with `//`. -/
def urlunsplitB (scheme netloc pathQ query fragment : List Nat) : List Nat :=
  let url := pathQ
  let url :=
    if !netloc.isEmpty ||
       (!scheme.isEmpty && usesNetlocList.contains scheme && url.take 2 ≠ [47, 47]) then
      [47, 47] ++ netloc ++ (if !url.isEmpty && url.take 1 ≠ [47] then 47 :: url else url)
    else url
  let url := if !scheme.isEmpty then scheme ++ 58 :: url else url
  let url := if !query.isEmpty then url ++ 63 :: query else url
  if !fragment.isEmpty then url ++ 35 :: fragment else url

/-- Byte-level model of CPython `urllib.parse.urlunparse`: reattach parameters
with a semicolon, then `urlunsplit`. -/
def urlunparseB (p : UrlParseResult) : List Nat :=
  let u := if !p.params.isEmpty then p.path ++ 59 :: p.params else p.path
  urlunsplitB p.scheme p.netloc u p.query p.fragment

/-- Upper-case hex digit byte for a value below 16. -/
def hexUpper (n : Nat) : Nat := if n < 10 then 48 + n else 55 + n

/-- Bytes never percent-encoded by `urllib.parse.quote` with the default
`safe='/'`: ASCII alphanumerics, `_.-~`, and the slash. -/
def safeB (b : Nat) : Bool := isAlnumB b || b = 95 || b = 46 || b = 45 || b = 126 || b = 47

/-- Percent-encoding of one byte. -/
def quote1 (b : Nat) : List Nat :=
  if safeB b then [b] else [37, hexUpper (b / 16), hexUpper (b % 16)]

/-- Byte-level model of `urllib.parse.quote` (default `safe='/'`). -/
def quoteB : List Nat → List Nat
  | [] => []
  | b :: rest => quote1 b ++ quoteB rest

/-- Value of a hex digit byte (both cases), if any. -/
def hexValB (b : Nat) : Option Nat :=
  if 48 ≤ b ∧ b ≤ 57 then some (b - 48)
  else if 65 ≤ b ∧ b ≤ 70 then some (b - 55)
  else if 97 ≤ b ∧ b ≤ 102 then some (b - 87)
  else none

/-- Byte-level model of `urllib.parse.unquote`: decode `%XX` escapes, leaving
malformed escapes untouched. -/
def unquoteB : List Nat → List Nat
  | [] => []
  | 37 :: h1 :: h2 :: rest2 =>
    (match hexValB h1, hexValB h2 with
     | some x, some y => (16 * x + y) :: unquoteB rest2
     | some _, none => 37 :: unquoteB (h1 :: h2 :: rest2)
     | none, _ => 37 :: unquoteB (h1 :: h2 :: rest2))
  | 37 :: h1 :: [] => [37, h1]
  | 37 :: [] => [37]
  | b :: rest => b :: unquoteB rest

/-- Schemes kept by `convert_a` (lowercased comparison). -/
def allowedSchemes : List (List Nat) := [bs "http", bs "https", bs "file"]

/-- The href rewrite performed by `convert_a` for a kept link:
`urlunparse(parsed._replace(path=quote(unquote(parsed.path))))`. -/
def rewriteHref (p : UrlParseResult) : List Nat :=
  urlunparseB { p with path := quoteB (unquoteB p.path) }

/-- Python `str.strip()` whitespace bytes (ASCII range). -/
def pyWS (b : Nat) : Bool :=
  b = 32 || b = 9 || b = 10 || b = 13 || b = 11 || b = 12 || decide (28 ≤ b ∧ b ≤ 31)

/-- Python `str.strip()` on a byte string (ASCII-range whitespace). -/
def pyStripB (s : List Nat) : List Nat :=
  ((s.dropWhile pyWS).reverse.dropWhile pyWS).reverse

/-- Embedding of `markdownify.chomp`: a single-space prelude/epilogue is split
off when the text starts/ends with a space, and the text is stripped. -/
def chompB (t : List Nat) : List Nat × List Nat × List Nat :=
  (if t.head? = some 32 then [32] else [],
   if t.getLast? = some 32 then [32] else [],
   pyStripB t)

/-- Python `text.replace("\\_", "_")`: left-to-right non-overlapping
replacement of the two-byte sequence backslash-underscore by underscore. -/
def replaceEscUnderscore : List Nat → List Nat
  | 92 :: 95 :: rest => 95 :: replaceEscUnderscore rest
  | b :: rest => b :: replaceEscUnderscore rest
  | [] => []

/-- Python `title.replace('"', '\\"')`. -/
def escQuote : List Nat → List Nat
  | 34 :: rest => 92 :: 34 :: escQuote rest
  | b :: rest => b :: escQuote rest
  | [] => []

/-- Options of the renderer consulted by `convert_a`. -/
structure AnchorOptions where
  autolinks : Bool
  default_title : Bool
deriving DecidableEq

/-- An anchor element as seen by `convert_a`: whether some ancestor is a
`pre` element, and its `href`/`title` attributes (`none` models a Python
`None`). -/
structure AnchorEl where
  inPre : Bool
  href : Option (List Nat)
  title : Option (List Nat)
deriving DecidableEq

/-- Python truthiness of an optional string attribute. -/
def optTruthy (t : Option (List Nat)) : Bool :=
  match t with
  | some s => !s.isEmpty
  | none => false

/-- Common tail of `convert_a` after the scheme gate: autolink shortcut,
default title synthesis, title escaping and final link assembly.  `href` here
is the (possibly rewritten) href variable at that point of the source. -/
def anchorTail (opts : AnchorOptions) (pre suf txt : List Nat)
    (href : Option (List Nat)) (title0 : Option (List Nat)) : List Nat :=
  let hrefEq : Bool :=
    match href with
    | some h => replaceEscUnderscore txt == h
    | none => false
  if opts.autolinks && hrefEq && !optTruthy title0 && !opts.default_title then
    bs "<" ++ href.getD [] ++ bs ">"
  else
    let t1 : Option (List Nat) :=
      if opts.default_title && !optTruthy title0 then href else title0
    let titlePart : List Nat :=
      if optTruthy t1 then bs " \"" ++ escQuote (t1.getD []) ++ bs "\"" else []
    if optTruthy href then
      pre ++ bs "[" ++ txt ++ bs "](" ++ href.getD [] ++ titlePart ++ bs ")" ++ suf
    else txt

/-- Embedding of `_CustomMarkdownify.convert_a`: chomp the text, return it
unchanged inside `pre` ancestors, drop anchors with a disallowed scheme (or an
unparsable href), rewrite the path of kept hrefs, then render via the shared
tail. -/
def convert_a (opts : AnchorOptions) (el : AnchorEl) (text0 : List Nat) : List Nat :=
  let c := chompB text0
  let pre := c.1
  let suf := c.2.1
  let txt := c.2.2
  if txt.isEmpty then []
  else if el.inPre then txt
  else
    match el.href with
    | none => anchorTail opts pre suf txt none el.title
    | some h =>
      if h.isEmpty then anchorTail opts pre suf txt (some h) el.title
      else
        match urlparseB h with
        | none => pre ++ txt ++ suf
        | some p =>
          if !p.scheme.isEmpty && !(allowedSchemes.contains (lowerBytes p.scheme)) then
            pre ++ txt ++ suf
          else
            anchorTail opts pre suf txt (some (rewriteHref p)) el.title

/-! Model of the pieces needed by `convert_img`: decimal numerals, a posix
`pathlib.PurePosixPath` string model, a filesystem state, base64 decoding and
the `data:image/...;base64,...` regular expression. -/

/-- Decimal digits (ASCII bytes) of a natural number, as produced by a Python
f-string. -/
def natToDigits (n : Nat) : List Nat := (Nat.toDigits 10 n).map Char.toNat

/-- Split a byte string on every occurrence of `c`. -/
def splitAll (c : Nat) : List Nat → List (List Nat)
  | [] => [[]]
  | b :: rest =>
    let r := splitAll c rest
    if b = c then [] :: r
    else (b :: r.headD []) :: r.tail

/-- Path segments of a `PurePosixPath`: empty and `.` segments are dropped. -/
def pathSegs (p : List Nat) : List (List Nat) :=
  (splitAll 47 p).filter (fun s => !s.isEmpty && s ≠ bs ".")

/-- Root marker of a `PurePosixPath`: exactly two leading slashes are kept as
`//`, otherwise one-or-more leading slashes become `/`. -/
def pathRoot (p : List Nat) : List Nat :=
  if p.take 2 = [47, 47] ∧ p.take 3 ≠ [47, 47, 47] then [47, 47]
  else if p.take 1 = [47] then [47] else []

/-- Join path segments with slashes. -/
def joinSegs : List (List Nat) → List Nat
  | [] => []
  | [s] => s
  | s :: rest => s ++ 47 :: joinSegs rest

/-- Model of `str(pathlib.PurePosixPath(p))`. -/
def pathStr (p : List Nat) : List Nat :=
  let root := pathRoot p
  let segs := pathSegs p
  if segs.isEmpty then (if root.isEmpty then bs "." else root)
  else root ++ joinSegs segs

/-- Model of `str(pathlib.PurePosixPath(p).parent)`. -/
def pathParent (p : List Nat) : List Nat :=
  let root := pathRoot p
  let segs := pathSegs p
  if segs.length ≤ 1 then (if root.isEmpty then bs "." else root)
  else root ++ joinSegs segs.dropLast

/-- Directories created by `mkdir(parents=True)`: the directory together with
its ancestor chain. -/
def ancestorChainGo : Nat → List Nat → List (List Nat)
  | 0, d => [d]
  | n + 1, d => d :: ancestorChainGo n (pathParent d)

/-- The directory and all its ancestors. -/
def ancestorChain (d : List Nat) : List (List Nat) :=
  ancestorChainGo (pathSegs d).length d

/-- A file system: existing directories and files with their contents. -/
structure FileSys where
  dirs : List (List Nat)
  files : List (List Nat × List Nat)
deriving DecidableEq

/-- Writing a file (`open(path, "wb")` followed by `write`). -/
def setFile (fs : FileSys) (path content : List Nat) : FileSys :=
  { fs with files := (path, content) :: fs.files.filter (fun e => !(e.1 == path)) }

/-- Contents of the file at `path`, if present. -/
def getFile (fs : FileSys) (path : List Nat) : Option (List Nat) :=
  (fs.files.find? (fun e => e.1 == path)).map (fun e => e.2)

/-- Value of a base64 alphabet byte. -/
def b64Val (b : Nat) : Option Nat :=
  if 65 ≤ b ∧ b ≤ 90 then some (b - 65)
  else if 97 ≤ b ∧ b ≤ 122 then some (b - 71)
  else if 48 ≤ b ∧ b ≤ 57 then some (b + 4)
  else if b = 43 then some 62
  else if b = 47 then some 63
  else none

/-- Model of `base64.b64decode` on clean input: groups of four alphabet bytes
become three bytes, with `=` padding at the end; anything else (including a
length not divisible by four) is a decoding error (`none`). -/
def b64decodeB : List Nat → Option (List Nat)
  | [] => some []
  | a :: b :: c :: d :: rest =>
    (match b64Val a, b64Val b with
     | some va, some vb =>
       if c = 61 ∧ d = 61 ∧ rest = [] then
         some [va * 4 + vb / 16]
       else if d = 61 ∧ rest = [] then
         (match b64Val c with
          | some vc => some [va * 4 + vb / 16, vb % 16 * 16 + vc / 4]
          | none => none)
       else
         (match b64Val c, b64Val d with
          | some vc, some vd =>
            (b64decodeB rest).map
              (fun tail => (va * 4 + vb / 16) :: (vb % 16 * 16 + vc / 4) ::
                           ((vc % 4 * 64 + vd) :: tail))
          | _, _ => none)
     | _, _ => none)
  | _ => none

/-- The regular expression match `re.match(r"data:image/([^;]+);base64,(.*)", src)`:
group 1 is the nonempty format (no semicolon), group 2 the payload up to the
first newline (`.` does not match a newline). -/
def matchDataImageB64 (src : List Nat) : Option (List Nat × List Nat) :=
  if src.take 11 = bs "data:image/" then
    let rest := src.drop 11
    match splitOnFirst 59 rest with
    | some d =>
      if !d.1.isEmpty && (d.2.take 7 = bs "base64,") then
        some (d.1, (d.2.drop 7).takeWhile (fun b => !(b == 10)))
      else none
    | none => none
  else none

/-- Options of the renderer consulted by `convert_img`; `export_data_uris` is
the path-like option where the empty string models the falsy disabled value. -/
structure ImgOptions where
  keep_data_uris : Bool
  export_data_uris : List Nat
  keep_inline_images_in : List (List Nat)
deriving DecidableEq

/-- An image element as seen by `convert_img`. -/
structure ImgEl where
  alt : Option (List Nat)
  src : Option (List Nat)
  dataSrc : Option (List Nat)
  title : Option (List Nat)
  parentName : List Nat
deriving DecidableEq

/-- Renderer state touched by `convert_img`: the export counter
(`save_uri_index`, 0 for a fresh renderer) and the file system. -/
structure ImgState where
  save_uri_index : Nat
  fs : FileSys
deriving DecidableEq

/-- Python `a or b or ""` on two optional string attributes. -/
def pyOr2 (a b : Option (List Nat)) : List Nat :=
  if optTruthy a then a.getD [] else if optTruthy b then b.getD [] else []

/-- Python `src.split(",")[0] + "..."`. -/
def truncUri (src : List Nat) : List Nat :=
  (match splitOnFirst 44 src with
   | some d => d.1
   | none => src) ++ bs "..."

/-- Embedding of `_CustomMarkdownify.convert_img`: resolve `alt`/`src`/`title`,
elide inline images, and for data-URI sources either export the decoded
payload to a numbered file under the export prefix, truncate the URI, or keep
it, depending on the options.  Returns `none` when the base64 decode raises. -/
def convert_img (opts : ImgOptions) (el : ImgEl) (convert_as_inline : Bool)
    (st : ImgState) : Option (List Nat × ImgState) :=
  let alt0 := if optTruthy el.alt then el.alt.getD [] else []
  let src0 := pyOr2 el.src el.dataSrc
  let title := if optTruthy el.title then el.title.getD [] else []
  let title_part : List Nat :=
    if !title.isEmpty then bs " \"" ++ escQuote title ++ bs "\"" else []
  let alt := alt0.map (fun b => if b = 10 then 32 else b)
  if convert_as_inline && !(opts.keep_inline_images_in.contains el.parentName) then
    some (alt, st)
  else if src0.take 5 = bs "data:" then
    if !opts.export_data_uris.isEmpty then
      match matchDataImageB64 src0 with
      | some m =>
        let idx := st.save_uri_index + 1
        let raw := opts.export_data_uris ++ bs "image" ++ natToDigits idx ++ 46 :: m.1
        let srcPath := pathStr raw
        let par := pathParent raw
        let fs1 :=
          if !(st.fs.dirs.contains par) then
            { st.fs with dirs := st.fs.dirs ++ ancestorChain par }
          else st.fs
        match b64decodeB m.2 with
        | some bytes =>
          some (bs "![" ++ alt ++ bs "](" ++ srcPath ++ title_part ++ bs ")",
                { save_uri_index := idx, fs := setFile fs1 srcPath bytes })
        | none => none
      | none =>
        some (bs "![" ++ alt ++ bs "](" ++ truncUri src0 ++ title_part ++ bs ")", st)
    else if !opts.keep_data_uris then
      some (bs "![" ++ alt ++ bs "](" ++ truncUri src0 ++ title_part ++ bs ")", st)
    else
      some (bs "![" ++ alt ++ bs "](" ++ src0 ++ title_part ++ bs ")", st)
  else
    some (bs "![" ++ alt ++ bs "](" ++ src0 ++ title_part ++ bs ")", st)

/-- C4: an anchor outside `pre` with nonempty chomped text whose href parses
to a URI with a nonempty scheme other than http, https or file (lowercased)
renders as the plain chomp decomposition `prelude ++ text ++ epilogue`, with
no Markdown link syntax. -/
theorem c4_theorem (opts : AnchorOptions) (el : AnchorEl) (text0 h : List Nat)
    (p : UrlParseResult)
    (hpre : el.inPre = false)
    (hhref : el.href = some h)
    (hp : urlparseB h = some p)
    (hs : p.scheme ≠ [])
    (hbad : allowedSchemes.contains (lowerBytes p.scheme) = false)
    (htxt : (chompB text0).2.2 ≠ []) :
    convert_a opts el text0 =
      (chompB text0).1 ++ (chompB text0).2.2 ++ (chompB text0).2.1 := by
  have hne : h.isEmpty = false := by
    cases hx : h with
    | nil =>
      subst hx
      have heq : urlparseB ([] : List Nat) = some ⟨[], [], [], [], [], []⟩ := rfl
      rw [heq] at hp
      have := Option.some_inj.mp hp
      rw [← this] at hs
      exact absurd rfl hs
    | cons a t => rfl
  have htxt' : (chompB text0).2.2.isEmpty = false := by
    cases hx : (chompB text0).2.2 with
    | nil => exact absurd hx htxt
    | cons a t => rfl
  have hs' : p.scheme.isEmpty = false := by
    cases hx : p.scheme with
    | nil => exact absurd hx hs
    | cons a t => rfl
  unfold convert_a
  simp only [hhref, hp]
  simp [htxt', hpre, hne, hs', hbad]
  intro hmem
  have : allowedSchemes.contains (lowerBytes p.scheme) = true := by simpa using hmem
  rw [hbad] at this
  exact Bool.noConfusion this

/-- C4 witness: `href="javascript:alert(1)"` renders as the plain link text. -/
theorem c4_witness :
    convert_a ⟨true, false⟩ ⟨false, some (bs "javascript:alert(1)"), none⟩
        (bs "click") = bs "click" := by
  have h := c4_theorem ⟨true, false⟩ ⟨false, some (bs "javascript:alert(1)"), none⟩
    (bs "click") (bs "javascript:alert(1)")
    ⟨bs "javascript", [], bs "alert(1)", [], [], []⟩
    rfl rfl (by decide) (by decide) (by decide) (by decide)
  exact h

/-- C8: with `export_data_uris` configured and a data-URI source matching the
base64 image pattern whose payload decodes, `convert_img` (outside inline
context) increments the export counter, ensures the export file's parent
directory exists (creating it and its ancestors only when absent), writes
exactly the decoded payload bytes to `image<N>.<format>` under the export
prefix, and renders an image tag referencing that file's path. -/
theorem c8_theorem (opts : ImgOptions) (el : ImgEl) (st : ImgState)
    (fmt payload bytes : List Nat)
    (hexp : opts.export_data_uris ≠ [])
    (hmatch : matchDataImageB64 (pyOr2 el.src el.dataSrc) = some (fmt, payload))
    (hdec : b64decodeB payload = some bytes) :
    ∃ out st',
      convert_img opts el false st = some (out, st') ∧
      st'.save_uri_index = st.save_uri_index + 1 ∧
      getFile st'.fs
        (pathStr (opts.export_data_uris ++ bs "image" ++
          natToDigits (st.save_uri_index + 1) ++ 46 :: fmt)) = some bytes ∧
      (pathParent (opts.export_data_uris ++ bs "image" ++
          natToDigits (st.save_uri_index + 1) ++ 46 :: fmt)) ∈ st'.fs.dirs ∧
      ((pathParent (opts.export_data_uris ++ bs "image" ++
          natToDigits (st.save_uri_index + 1) ++ 46 :: fmt)) ∈ st.fs.dirs →
        st'.fs.dirs = st.fs.dirs) ∧
      out = bs "![" ++
        ((if optTruthy el.alt then el.alt.getD [] else []).map
          (fun b => if b = 10 then 32 else b)) ++ bs "](" ++
        pathStr (opts.export_data_uris ++ bs "image" ++
          natToDigits (st.save_uri_index + 1) ++ 46 :: fmt) ++
        (if !(if optTruthy el.title then el.title.getD [] else []).isEmpty then
           bs " \"" ++ escQuote (if optTruthy el.title then el.title.getD [] else []) ++ bs "\""
         else []) ++ bs ")" := by
  have hexp' : opts.export_data_uris.isEmpty = false := by
    cases hx : opts.export_data_uris with
    | nil => exact absurd hx hexp
    | cons a t => rfl
  have hdata : (pyOr2 el.src el.dataSrc).take 5 = bs "data:" := by
    have h11 : (pyOr2 el.src el.dataSrc).take 11 = bs "data:image/" := by
      by_contra hcon
      unfold matchDataImageB64 at hmatch
      rw [if_neg hcon] at hmatch
      exact Option.noConfusion hmatch
    have h511 : ((pyOr2 el.src el.dataSrc).take 11).take 5 =
        (pyOr2 el.src el.dataSrc).take 5 := by
      rw [List.take_take]
      norm_num
    rw [← h511, h11]
    rfl
  have hmem : ∀ d : List Nat, d ∈ ancestorChain d := by
    intro d
    unfold ancestorChain
    cases (pathSegs d).length with
    | zero => exact List.mem_singleton.mpr rfl
    | succ n => exact List.mem_cons_self _ _
  unfold convert_img
  simp only [hdata, hexp', hmatch, hdec, Bool.false_and, Bool.not_false,
             if_true, if_false]
  refine ⟨_, _, rfl, rfl, ?_, ?_, ?_, rfl⟩
  · simp [getFile, setFile]
  · by_cases hc : pathParent (opts.export_data_uris ++ bs "image" ++
        natToDigits (st.save_uri_index + 1) ++ 46 :: fmt) ∈ st.fs.dirs
    · have hc' : st.fs.dirs.contains (pathParent (opts.export_data_uris ++ bs "image" ++
          natToDigits (st.save_uri_index + 1) ++ 46 :: fmt)) = true := by simpa using hc
      simp only [setFile, hc', Bool.not_true]
      rw [if_neg (by simp)]
      exact hc
    · have hc' : st.fs.dirs.contains (pathParent (opts.export_data_uris ++ bs "image" ++
          natToDigits (st.save_uri_index + 1) ++ 46 :: fmt)) = false := by simpa using hc
      simp only [setFile, hc', Bool.not_false]
      rw [if_pos trivial]
      simp only [List.mem_append]
      exact Or.inr (hmem _)
  · intro hpar
    have hc' : st.fs.dirs.contains (pathParent (opts.export_data_uris ++ bs "image" ++
        natToDigits (st.save_uri_index + 1) ++ 46 :: fmt)) = true := by simpa using hpar
    simp only [setFile, hc', Bool.not_true]
    rw [if_neg (by simp)]

/-- C8 witness: a fresh renderer with `exportDataUris="/out/"` and an empty
file system, on `data:image/png;base64,AA==`: `/out` is created,
`/out/image1.png` receives the single decoded zero byte, and the rendered tag
references that path. -/
theorem c8_witness :
    (∃ out st',
      convert_img ⟨false, bs "/out/", []⟩
        ⟨some (bs "logo"), some (bs "data:image/png;base64,AA=="), none, none, bs "p"⟩
        false ⟨0, ⟨[], []⟩⟩ = some (out, st') ∧
      st'.save_uri_index = 0 + 1 ∧
      getFile st'.fs (pathStr (bs "/out/" ++ bs "image" ++ natToDigits (0 + 1) ++
        46 :: bs "png")) = some [0] ∧
      (pathParent (bs "/out/" ++ bs "image" ++ natToDigits (0 + 1) ++ 46 :: bs "png")) ∈
        st'.fs.dirs ∧
      ((pathParent (bs "/out/" ++ bs "image" ++ natToDigits (0 + 1) ++ 46 :: bs "png")) ∈
          ([] : List (List Nat)) → st'.fs.dirs = []) ∧
      out = bs "![" ++ ((bs "logo").map (fun b => if b = 10 then 32 else b)) ++
        bs "](" ++ pathStr (bs "/out/" ++ bs "image" ++ natToDigits (0 + 1) ++
        46 :: bs "png") ++ [] ++ bs ")") := by
  have h := c8_theorem ⟨false, bs "/out/", []⟩
    ⟨some (bs "logo"), some (bs "data:image/png;base64,AA=="), none, none, bs "p"⟩
    ⟨0, ⟨[], []⟩⟩ (bs "png") (bs "AA==") [0]
    (by decide) (by decide) (by decide)
  simpa using h

/-! Lemma library for the idempotence analysis of the href rewrite (claim
about repeated application of the anchor rule).  First: splitting lemmas. -/

/-- Characterization of a failed first-occurrence split. -/
theorem splitOnFirst_eq_none {α : Type} [DecidableEq α] {c : α} {s : List α}
    (h : c ∉ s) : splitOnFirst c s = none := by
  induction s with
  | nil => rfl
  | cons b rest ih =>
    simp only [splitOnFirst]
    rw [if_neg (by intro hbc; exact h (hbc ▸ List.mem_cons_self b rest))]
    rw [ih (fun hm => h (List.mem_cons_of_mem b hm))]

/-- Computation of a successful first-occurrence split. -/
theorem splitOnFirst_append {α : Type} [DecidableEq α] {c : α} {a : List α}
    (b : List α) (h : c ∉ a) : splitOnFirst c (a ++ c :: b) = some (a, b) := by
  induction a with
  | nil => simp [splitOnFirst]
  | cons x rest ih =>
    rw [List.cons_append]
    simp only [splitOnFirst]
    rw [if_neg (by intro hbc; exact h (hbc ▸ List.mem_cons_self x rest))]
    rw [ih (fun hm => h (List.mem_cons_of_mem x hm))]

/-- Inversion of a successful first-occurrence split. -/
theorem splitOnFirst_eq_some {α : Type} [DecidableEq α] {c : α} {s a b : List α}
    (h : splitOnFirst c s = some (a, b)) : s = a ++ c :: b ∧ c ∉ a := by
  induction s generalizing a with
  | nil => exact Option.noConfusion h
  | cons x rest ih =>
    simp only [splitOnFirst] at h
    by_cases hx : x = c
    · rw [if_pos hx] at h
      have hpair := Option.some_inj.mp h
      have ha : ([] : List α) = a := congrArg Prod.fst hpair
      have hb : rest = b := congrArg Prod.snd hpair
      subst hx
      constructor
      · rw [← ha, ← hb]; rfl
      · rw [← ha]; exact List.not_mem_nil x
    · rw [if_neg hx] at h
      cases hrec : splitOnFirst c rest with
      | none => rw [hrec] at h; exact Option.noConfusion h
      | some pr =>
        rw [hrec] at h
        have hpair := Option.some_inj.mp h
        have ha : x :: pr.1 = a := congrArg Prod.fst hpair
        have hb : pr.2 = b := congrArg Prod.snd hpair
        have hpr : splitOnFirst c rest = some (pr.1, b) := by
          rw [hrec, ← hb]
        obtain ⟨hs, hcn⟩ := ih hpr
        constructor
        · rw [← ha, hs]; rfl
        · rw [← ha]
          intro hm
          rcases List.mem_cons.mp hm with hh | ht
          · exact hx hh.symm
          · exact hcn ht

/-- Computation of a successful last-occurrence split. -/
theorem splitOnLast_append {α : Type} [DecidableEq α] {c : α} (a : List α)
    {b : List α} (h : c ∉ b) : splitOnLast c (a ++ c :: b) = some (a, b) := by
  unfold splitOnLast
  have hrev : (a ++ c :: b).reverse = b.reverse ++ c :: a.reverse := by
    simp
  rw [hrev, splitOnFirst_append _ (by simpa using h)]
  simp

/-- Characterization of a failed last-occurrence split. -/
theorem splitOnLast_eq_none {α : Type} [DecidableEq α] {c : α} {s : List α}
    (h : c ∉ s) : splitOnLast c s = none := by
  unfold splitOnLast
  rw [splitOnFirst_eq_none (by simpa using h)]

/-- Elements of the pieces of a first-occurrence split come from the input. -/
theorem mem_of_splitOnFirst {α : Type} [DecidableEq α] {c : α} {s a b : List α}
    (h : splitOnFirst c s = some (a, b)) :
    (∀ x ∈ a, x ∈ s) ∧ (∀ x ∈ b, x ∈ s) := by
  obtain ⟨hs, _⟩ := splitOnFirst_eq_some h
  subst hs
  constructor
  · intro x hx; exact List.mem_append.mpr (Or.inl hx)
  · intro x hx; exact List.mem_append.mpr (Or.inr (List.mem_cons_of_mem c hx))

/-- A last-occurrence decomposition exists whenever the element occurs. -/
theorem exists_splitOnLast {α : Type} [DecidableEq α] {c : α} {s : List α}
    (h : c ∈ s) : ∃ a b, s = a ++ c :: b ∧ c ∉ b := by
  induction s with
  | nil => exact absurd h (List.not_mem_nil c)
  | cons x rest ih =>
    by_cases hc : c ∈ rest
    · obtain ⟨a, b, hs, hb⟩ := ih hc
      exact ⟨x :: a, b, by rw [hs]; rfl, hb⟩
    · have hx : x = c := by
        rcases List.mem_cons.mp h with hh | ht
        · exact hh.symm
        · exact absurd ht hc
      exact ⟨[], rest, by rw [hx]; rfl, hc⟩

/-! Scanning helpers: sanitization, netloc split, scheme extraction. -/

/-- Leading-strip is the identity when the head (if any) is above the
C0-control-or-space range. -/
theorem lstripC0Space_eq_self {s : List Nat}
    (h : ∀ b, s.head? = some b → ¬ b ≤ 32) : lstripC0Space s = s := by
  cases s with
  | nil => rfl
  | cons b rest =>
    simp only [lstripC0Space]
    rw [if_neg (h b rfl)]

/-- Tab/CR/LF removal is the identity on strings without those bytes. -/
theorem removeTabCrLf_eq_self {s : List Nat}
    (h : ∀ b ∈ s, ¬(b = 9 ∨ b = 10 ∨ b = 13)) : removeTabCrLf s = s := by
  induction s with
  | nil => rfl
  | cons b rest ih =>
    simp only [removeTabCrLf]
    rw [if_neg (h b (List.mem_cons_self b rest))]
    rw [ih (fun x hx => h x (List.mem_cons_of_mem b hx))]

/-- Elements survive tab/CR/LF removal only if present initially. -/
theorem mem_of_removeTabCrLf {s : List Nat} {b : Nat}
    (h : b ∈ removeTabCrLf s) : b ∈ s := by
  induction s with
  | nil => exact absurd h (List.not_mem_nil b)
  | cons x rest ih =>
    simp only [removeTabCrLf] at h
    by_cases hx : x = 9 ∨ x = 10 ∨ x = 13
    · rw [if_pos hx] at h
      exact List.mem_cons_of_mem x (ih h)
    · rw [if_neg hx] at h
      rcases List.mem_cons.mp h with hh | ht
      · exact hh ▸ List.mem_cons_self x rest
      · exact List.mem_cons_of_mem x (ih ht)

/-- Tab, CR and LF never survive removal. -/
theorem not_bad_of_removeTabCrLf {s : List Nat} {b : Nat}
    (h : b ∈ removeTabCrLf s) : ¬(b = 9 ∨ b = 10 ∨ b = 13) := by
  induction s with
  | nil => exact absurd h (List.not_mem_nil b)
  | cons x rest ih =>
    simp only [removeTabCrLf] at h
    by_cases hx : x = 9 ∨ x = 10 ∨ x = 13
    · rw [if_pos hx] at h; exact ih h
    · rw [if_neg hx] at h
      rcases List.mem_cons.mp h with hh | ht
      · exact hh ▸ hx
      · exact ih ht

/-- Elements survive the leading strip only if present initially. -/
theorem mem_of_lstripC0Space {s : List Nat} {b : Nat}
    (h : b ∈ lstripC0Space s) : b ∈ s := by
  induction s with
  | nil => exact absurd h (List.not_mem_nil b)
  | cons x rest ih =>
    simp only [lstripC0Space] at h
    by_cases hx : x ≤ 32
    · rw [if_pos hx] at h; exact List.mem_cons_of_mem x (ih h)
    · rw [if_neg hx] at h; exact h

/-- Splitting the netloc of a string whose marked part has no stop bytes and
whose remainder starts with a stop byte (or is empty). -/
theorem splitNetloc_append {n X : List Nat}
    (hn : ∀ b ∈ n, netlocStop b = false)
    (hX : X = [] ∨ ∃ b t, X = b :: t ∧ netlocStop b = true) :
    splitNetloc (n ++ X) = (n, X) := by
  induction n with
  | nil =>
    rcases hX with hX | ⟨b, t, hbt, hb⟩
    · subst hX; rfl
    · subst hbt
      rw [List.nil_append]
      simp only [splitNetloc]
      rw [if_pos hb]
  | cons x rest ih =>
    rw [List.cons_append]
    simp only [splitNetloc]
    rw [if_neg (by rw [hn x (List.mem_cons_self x rest)]; exact Bool.noConfusion)]
    rw [ih (fun b hb => hn b (List.mem_cons_of_mem x hb))]

/-- Scheme extraction with an explicit well-formed scheme in front. -/
theorem extractScheme_of_scheme {s : List Nat} (rest : List Nat)
    (hne : s ≠ []) (hcolon : 58 ∉ s) (hhead : isAlphaB (s.headD 0) = true)
    (hchars : s.all schemeCharB = true) :
    extractScheme (s ++ 58 :: rest) = (lowerBytes s, rest) := by
  have hsplit : splitOnFirst 58 (s ++ 58 :: rest) = some (s, rest) :=
    splitOnFirst_append rest hcolon
  have hne' : s.isEmpty = false := by
    cases s with
    | nil => exact absurd rfl hne
    | cons a t => rfl
  have hhead2 : isAlphaB (s.head?.getD 0) = true := by
    rw [← List.headD_eq_head?]
    exact hhead
  simp [extractScheme, hsplit, hne', hhead2, hchars]

/-- Scheme extraction studies nothing without a colon. -/
theorem extractScheme_no_colon {u : List Nat} (h : 58 ∉ u) :
    extractScheme u = ([], u) := by
  unfold extractScheme
  rw [splitOnFirst_eq_none h]

/-- Scheme extraction fails when the string does not start with a letter. -/
theorem extractScheme_head_not_alpha {u : List Nat}
    (h : ∀ b, u.head? = some b → isAlphaB b = false) :
    extractScheme u = ([], u) := by
  cases hsp : splitOnFirst 58 u with
  | none => simp [extractScheme, hsp]
  | some pr =>
    obtain ⟨hu, _⟩ := splitOnFirst_eq_some (a := pr.1) (b := pr.2)
      (by rw [hsp])
    simp only [extractScheme, hsp]
    rw [if_neg]
    simp only [Bool.and_eq_true, Bool.not_eq_true']
    intro ⟨⟨hne, hal⟩, _⟩
    cases hc : pr.1 with
    | nil => rw [hc] at hne; simp at hne
    | cons a t =>
      have : u.head? = some a := by rw [hu, hc]; rfl
      have := h a this
      rw [hc] at hal
      simp only [List.headD_cons] at hal
      rw [this] at hal
      exact Bool.noConfusion hal

/-- Scheme extraction fails when a non-scheme byte precedes the first colon. -/
theorem extractScheme_blocked {Qpre : List Nat} (m : Nat) (tail : List Nat)
    (hq : 58 ∉ Qpre) (hm : schemeCharB m = false) (hm58 : m ≠ 58) :
    extractScheme (Qpre ++ m :: tail) = ([], Qpre ++ m :: tail) := by
  cases hsp : splitOnFirst 58 (Qpre ++ m :: tail) with
  | none => simp [extractScheme, hsp]
  | some pr =>
    obtain ⟨hu, hnc⟩ := splitOnFirst_eq_some (a := pr.1) (b := pr.2) (by rw [hsp])
    simp only [extractScheme, hsp]
    rw [if_neg]
    simp only [Bool.and_eq_true, Bool.not_eq_true']
    intro ⟨⟨_, _⟩, hall⟩
    have hmem : m ∈ pr.1 := by
      rcases List.append_eq_append_iff.mp hu with ⟨w, hw1, hw2⟩ | ⟨w, hw1, hw2⟩
      · cases w with
        | nil =>
          rw [List.append_nil] at hw1
          have : m = 58 := by
            have := hw2
            rw [List.nil_append] at this
            exact (List.cons.injEq .. ▸ this).1
          exact absurd this hm58
        | cons a t =>
          have ha : a = m := by
            have := hw2
            exact ((List.cons.injEq .. ▸ this).1).symm
          rw [hw1]
          exact List.mem_append.mpr (Or.inr (ha ▸ List.mem_cons_self a t))
      · cases w with
        | nil =>
          rw [List.append_nil] at hw1
          have : 58 = m := by
            have := hw2
            rw [List.nil_append] at this
            exact (List.cons.injEq .. ▸ this).1
          exact absurd this.symm hm58
        | cons a t =>
          have ha : a = 58 := ((List.cons.injEq .. ▸ hw2).1).symm
          have : (58 : Nat) ∈ Qpre := by
            rw [hw1]
            exact List.mem_append.mpr (Or.inr (ha ▸ List.mem_cons_self a t))
          exact absurd this hq
    have := List.all_eq_true.mp hall m hmem
    rw [hm] at this
    exact Bool.noConfusion this

/-! Percent-encoding lemmas: the output alphabet of `quoteB`, the decode
equations of `unquoteB`, and the roundtrip `unquoteB (quoteB s) = s`. -/

/-- Appending distributes over percent-encoding. -/
theorem quoteB_append (a b : List Nat) :
    quoteB (a ++ b) = quoteB a ++ quoteB b := by
  induction a with
  | nil => rfl
  | cons x t ih =>
    show quote1 x ++ quoteB (t ++ b) = (quote1 x ++ quoteB t) ++ quoteB b
    rw [ih, List.append_assoc]

/-- Hex digits emitted by `hexUpper` are safe bytes (digits or A-F). -/
theorem safeB_hexUpper {n : Nat} (h : n < 16) : safeB (hexUpper n) = true := by
  unfold hexUpper safeB isAlnumB isAlphaB isUpperB isLowerB isDigitB
  by_cases h10 : n < 10
  · rw [if_pos h10]
    simp only [Bool.or_eq_true, decide_eq_true_eq, Bool.and_eq_true]
    omega
  · rw [if_neg h10]
    simp only [Bool.or_eq_true, decide_eq_true_eq, Bool.and_eq_true]
    omega

/-- Every byte of a percent-encoded valid byte string is safe or a percent
sign. -/
theorem mem_quoteB {s : List Nat} (hv : ∀ b ∈ s, b < 256) {b : Nat}
    (hb : b ∈ quoteB s) : safeB b = true ∨ b = 37 := by
  induction s with
  | nil => exact absurd hb (List.not_mem_nil b)
  | cons x t ih =>
    have hxv : x < 256 := hv x (List.mem_cons_self x t)
    have htv : ∀ y ∈ t, y < 256 := fun y hy => hv y (List.mem_cons_of_mem x hy)
    have hb' : b ∈ quote1 x ++ quoteB t := hb
    rcases List.mem_append.mp hb' with h1 | h2
    · unfold quote1 at h1
      by_cases hs : safeB x = true
      · rw [if_pos hs] at h1
        rcases List.mem_singleton.mp h1 with rfl
        exact Or.inl hs
      · rw [if_neg hs] at h1
        rcases List.mem_cons.mp h1 with rfl | h1b
        · exact Or.inr rfl
        rcases List.mem_cons.mp h1b with rfl | h1c
        · exact Or.inl (safeB_hexUpper (Nat.div_lt_iff_lt_mul (by norm_num) |>.mpr (by omega)))
        rcases List.mem_cons.mp h1c with rfl | h1d
        · exact Or.inl (safeB_hexUpper (Nat.mod_lt _ (by norm_num)))
        · exact absurd h1d (List.not_mem_nil b)
    · exact ih htv h2

/-- Decode equation: a non-percent byte passes through. -/
theorem unquoteB_cons_of_ne {b : Nat} (l : List Nat) (hb : b ≠ 37) :
    unquoteB (b :: l) = b :: unquoteB l := by
  match l with
  | [] => simp [unquoteB, hb]
  | [h1] => simp [unquoteB, hb]
  | h1 :: h2 :: r => simp [unquoteB, hb]

/-- Decode equation: a valid percent escape becomes its byte. -/
theorem unquoteB_escape {h1 h2 : Nat} (r : List Nat) {x y : Nat}
    (hx : hexValB h1 = some x) (hy : hexValB h2 = some y) :
    unquoteB (37 :: h1 :: h2 :: r) = (16 * x + y) :: unquoteB r := by
  simp [unquoteB, hx, hy]

/-- The hex digits produced by `hexUpper` decode back to their value. -/
theorem hexValB_hexUpper {n : Nat} (h : n < 16) : hexValB (hexUpper n) = some n := by
  unfold hexUpper hexValB
  by_cases h10 : n < 10
  · rw [if_pos h10, if_pos (by omega)]
    congr 1
    omega
  · rw [if_neg h10, if_neg (by omega), if_pos (by omega)]
    congr 1
    omega

/-- Decoding inverts encoding on byte strings. -/
theorem unquote_quote {s : List Nat} (hv : ∀ b ∈ s, b < 256) :
    unquoteB (quoteB s) = s := by
  induction s with
  | nil => rfl
  | cons b t ih =>
    have hbt : ∀ x ∈ t, x < 256 := fun x hx => hv x (List.mem_cons_of_mem b hx)
    have hb : b < 256 := hv b (List.mem_cons_self b t)
    show unquoteB (quote1 b ++ quoteB t) = b :: t
    unfold quote1
    by_cases hs : safeB b = true
    · rw [if_pos hs]
      have hb37 : b ≠ 37 := by
        intro he
        rw [he] at hs
        exact absurd hs (by decide)
      rw [List.singleton_append, unquoteB_cons_of_ne _ hb37, ih hbt]
    · rw [if_neg hs]
      have h16 : b / 16 < 16 := Nat.div_lt_iff_lt_mul (by norm_num) |>.mpr (by omega)
      have h16' : b % 16 < 16 := Nat.mod_lt _ (by norm_num)
      have hform : ([37, hexUpper (b / 16), hexUpper (b % 16)] : List Nat) ++ quoteB t =
          37 :: hexUpper (b / 16) :: hexUpper (b % 16) :: quoteB t := rfl
      rw [hform, unquoteB_escape _ (hexValB_hexUpper h16) (hexValB_hexUpper h16'),
          ih hbt, Nat.div_add_mod b 16]

/-- A decoded hex digit is below 16. -/
theorem hexValB_lt {c x : Nat} (h : hexValB c = some x) : x < 16 := by
  unfold hexValB at h
  split at h
  · have := Option.some_inj.mp h; omega
  · split at h
    · have := Option.some_inj.mp h; omega
    · split at h
      · have := Option.some_inj.mp h; omega
      · exact Option.noConfusion h

/-- Decoding preserves the byte bound. -/
theorem mem_unquoteB_lt : ∀ (s : List Nat), (∀ b ∈ s, b < 256) →
    ∀ b ∈ unquoteB s, b < 256 := by
  intro s
  induction s using unquoteB.induct with
  | case1 =>
    intro _ b hb
    exact absurd hb (List.not_mem_nil b)
  | case2 h1 h2 rest2 x y hy hx ih =>
    intro hv b hb
    rw [unquoteB_escape _ hx hy] at hb
    rcases List.mem_cons.mp hb with rfl | hbr
    · have hx16 := hexValB_lt hx
      have hy16 := hexValB_lt hy
      omega
    · exact ih (fun z hz => hv z (List.mem_cons_of_mem 37
        (List.mem_cons_of_mem h1 (List.mem_cons_of_mem h2 hz)))) b hbr
  | case3 h1 h2 rest2 val h2n h1s ih =>
    intro hv b hb
    simp only [unquoteB, h1s, h2n] at hb
    rcases List.mem_cons.mp hb with rfl | hbr
    · omega
    · exact ih (fun z hz => hv z (List.mem_cons_of_mem 37 hz)) b hbr
  | case4 h1 h2 rest2 h1n ih =>
    intro hv b hb
    simp only [unquoteB, h1n] at hb
    rcases List.mem_cons.mp hb with rfl | hbr
    · omega
    · exact ih (fun z hz => hv z (List.mem_cons_of_mem 37 hz)) b hbr
  | case5 h1 =>
    intro hv b hb
    simp only [unquoteB] at hb
    rcases List.mem_cons.mp hb with rfl | hbr
    · omega
    · rcases List.mem_singleton.mp hbr with rfl
      exact hv b (List.mem_cons_of_mem 37 (List.mem_singleton.mpr rfl))
  | case6 =>
    intro _ b hb
    simp only [unquoteB] at hb
    rcases List.mem_singleton.mp hb with rfl
    omega
  | case7 b' rest hc1 hc2 hc3 ih =>
    intro hv b hb
    have hb37 : b' ≠ 37 := by
      intro he
      cases rest with
      | nil => exact hc3 he rfl
      | cons a t =>
        cases t with
        | nil => exact hc2 a he rfl
        | cons a2 t2 => exact hc1 a a2 t2 he rfl
    rw [unquoteB_cons_of_ne _ hb37] at hb
    rcases List.mem_cons.mp hb with rfl | hbr
    · exact hv b (List.mem_cons_self b rest)
    · exact ih (fun z hz => hv z (List.mem_cons_of_mem b' hz)) b hbr

/-- Bytes outside the quote output alphabet never occur in a quote image. -/
theorem quoteB_no_delim {s : List Nat} (hv : ∀ b ∈ s, b < 256) {c : Nat}
    (hc : safeB c = false) (hc37 : c ≠ 37) : c ∉ quoteB s := by
  intro hmem
  rcases mem_quoteB hv hmem with h | h
  · rw [hc] at h; exact Bool.noConfusion h
  · exact hc37 h

/-- Quote-image bytes lie above the C0-control-or-space range. -/
theorem quoteB_gt32 {s : List Nat} (hv : ∀ b ∈ s, b < 256) {b : Nat}
    (hb : b ∈ quoteB s) : ¬ b ≤ 32 := by
  rcases mem_quoteB hv hb with h | h
  · unfold safeB isAlnumB isAlphaB isUpperB isLowerB isDigitB at h
    simp only [Bool.or_eq_true, decide_eq_true_eq] at h
    omega
  · omega

/-- Encoding after decoding fixes quote images. -/
theorem requote_quote {z : List Nat} (hz : ∀ b ∈ z, b < 256) :
    quoteB (unquoteB (quoteB z)) = quoteB z := by rw [unquote_quote hz]

/-- Decoding passes a leading slash through. -/
theorem unquoteB_cons47 (r : List Nat) : unquoteB (47 :: r) = 47 :: unquoteB r :=
  unquoteB_cons_of_ne r (by decide)

/-- Encoding passes a leading slash through. -/
theorem quoteB_cons47 (r : List Nat) : quoteB (47 :: r) = 47 :: quoteB r := rfl

/-- Inversion of a successful last-occurrence split. -/
theorem splitOnLast_eq_some {α : Type} [DecidableEq α] {c : α} {s a b : List α}
    (h : splitOnLast c s = some (a, b)) : s = a ++ c :: b ∧ c ∉ b := by
  unfold splitOnLast at h
  cases hsp : splitOnFirst c s.reverse with
  | none => rw [hsp] at h; exact Option.noConfusion h
  | some pr =>
    rw [hsp] at h
    have hpair := Option.some_inj.mp h
    have ha : pr.2.reverse = a := congrArg Prod.fst hpair
    have hb : pr.1.reverse = b := congrArg Prod.snd hpair
    obtain ⟨hs, hnc⟩ := splitOnFirst_eq_some (a := pr.1) (b := pr.2) (by rw [hsp])
    constructor
    · have hrev := congrArg List.reverse hs
      rw [List.reverse_reverse] at hrev
      rw [hrev, ← ha, ← hb]
      simp
    · rw [← hb]
      simpa using hnc

/-- A failed first-occurrence split means the element is absent. -/
theorem not_mem_of_splitOnFirst_none {α : Type} [DecidableEq α] {c : α}
    {s : List α} (h : splitOnFirst c s = none) : c ∉ s := by
  induction s with
  | nil => exact List.not_mem_nil c
  | cons x rest ih =>
    simp only [splitOnFirst] at h
    by_cases hx : x = c
    · rw [if_pos hx] at h; exact Option.noConfusion h
    · rw [if_neg hx] at h
      cases hsp : splitOnFirst c rest with
      | some pr => rw [hsp] at h; exact Option.noConfusion h
      | none =>
        intro hm
        rcases List.mem_cons.mp hm with hh | ht
        · exact hx hh.symm
        · exact ih hsp ht

/-- Structure of the netloc split: the netloc part has no stop bytes, both
parts come from the input, and the remainder is empty or starts with a stop
byte. -/
theorem splitNetloc_spec (s : List Nat) :
    (∀ b ∈ (splitNetloc s).1, netlocStop b = false) ∧
    (∀ b ∈ (splitNetloc s).1, b ∈ s) ∧
    (∀ b ∈ (splitNetloc s).2, b ∈ s) ∧
    ((splitNetloc s).2 = [] ∨
      ∃ c t, (splitNetloc s).2 = c :: t ∧ netlocStop c = true) := by
  induction s with
  | nil =>
    exact ⟨fun b hb => absurd hb (List.not_mem_nil b),
           fun b hb => absurd hb (List.not_mem_nil b),
           fun b hb => absurd hb (List.not_mem_nil b), Or.inl rfl⟩
  | cons x rest ih =>
    simp only [splitNetloc]
    by_cases hx : netlocStop x = true
    · rw [if_pos hx]
      exact ⟨fun b hb => absurd hb (List.not_mem_nil b),
             fun b hb => absurd hb (List.not_mem_nil b),
             fun b hb => hb, Or.inr ⟨x, rest, rfl, hx⟩⟩
    · rw [if_neg hx]
      obtain ⟨ih1, ih2, ih3, ih4⟩ := ih
      refine ⟨?_, ?_, ?_, ?_⟩
      · intro b hb
        rcases List.mem_cons.mp hb with rfl | hbr
        · exact Bool.not_eq_true _ ▸ hx
        · exact ih1 b hbr
      · intro b hb
        rcases List.mem_cons.mp hb with rfl | hbr
        · exact List.mem_cons_self b rest
        · exact List.mem_cons_of_mem x (ih2 b hbr)
      · intro b hb
        exact List.mem_cons_of_mem x (ih3 b hb)
      · exact ih4

/-- The ASCII lowering function, in arithmetic clothing. -/
theorem lowerB_eq (b : Nat) : lowerB b = if 65 ≤ b ∧ b ≤ 90 then b + 32 else b := by
  unfold lowerB isUpperB
  by_cases h : 65 ≤ b ∧ b ≤ 90 <;> simp [h]

/-- Lowering preserves scheme characters. -/
theorem schemeCharB_lowerB {b : Nat} (h : schemeCharB b = true) :
    schemeCharB (lowerB b) = true := by
  rw [lowerB_eq]
  by_cases hu : 65 ≤ b ∧ b ≤ 90
  · rw [if_pos hu]
    unfold schemeCharB isAlnumB isAlphaB isUpperB isLowerB isDigitB
    simp only [Bool.or_eq_true, decide_eq_true_eq]
    omega
  · rw [if_neg hu]; exact h

/-- Lowering preserves letters. -/
theorem isAlphaB_lowerB {b : Nat} (h : isAlphaB b = true) :
    isAlphaB (lowerB b) = true := by
  rw [lowerB_eq]
  by_cases hu : 65 ≤ b ∧ b ≤ 90
  · rw [if_pos hu]
    unfold isAlphaB isUpperB isLowerB
    simp only [Bool.or_eq_true, decide_eq_true_eq]
    omega
  · rw [if_neg hu]; exact h

/-- Lowering is idempotent. -/
theorem lowerB_idem (b : Nat) : lowerB (lowerB b) = lowerB b := by
  simp only [lowerB_eq]
  split_ifs <;> omega

/-- Lowering never produces a colon. -/
theorem lowerB_ne58 {b : Nat} (h : schemeCharB b = true) : lowerB b ≠ 58 := by
  intro he
  have := schemeCharB_lowerB h
  rw [he] at this
  exact absurd this (by decide)

/-- Lowering never produces tab, CR or LF. -/
theorem lowerB_not_bad {b : Nat} (h : ¬(b = 9 ∨ b = 10 ∨ b = 13)) :
    ¬(lowerB b = 9 ∨ lowerB b = 10 ∨ lowerB b = 13) := by
  rw [lowerB_eq]
  by_cases hu : 65 ≤ b ∧ b ≤ 90
  · rw [if_pos hu]; omega
  · rw [if_neg hu]; exact h

/-- Lowering preserves the byte bound. -/
theorem lowerB_lt {b : Nat} (h : b < 256) : lowerB b < 256 := by
  rw [lowerB_eq]
  by_cases hu : 65 ≤ b ∧ b ≤ 90
  · rw [if_pos hu]; omega
  · rw [if_neg hu]; exact h

/-- Specification of scheme extraction. -/
theorem extractScheme_spec {u sch u2 : List Nat}
    (h : extractScheme u = (sch, u2)) :
    (sch = [] ∧ u2 = u) ∨
    (∃ raw, u = raw ++ 58 :: u2 ∧ sch = lowerBytes raw ∧
      raw.all schemeCharB = true ∧ raw ≠ [] ∧ isAlphaB (raw.headD 0) = true) := by
  unfold extractScheme at h
  cases hsp : splitOnFirst 58 u with
  | none =>
    rw [hsp] at h
    exact Or.inl ⟨(congrArg Prod.fst h).symm, (congrArg Prod.snd h).symm⟩
  | some pr =>
    rw [hsp] at h
    have h' : (if (!pr.1.isEmpty && isAlphaB (pr.1.headD 0) && pr.1.all schemeCharB) = true
        then (lowerBytes pr.1, pr.2) else (([] : List Nat), u)) = (sch, u2) := h
    obtain ⟨hu, _⟩ := splitOnFirst_eq_some (a := pr.1) (b := pr.2) (by rw [hsp])
    by_cases hcond : (!pr.1.isEmpty && isAlphaB (pr.1.headD 0) && pr.1.all schemeCharB) = true
    · rw [if_pos hcond] at h'
      have h1 : lowerBytes pr.1 = sch := congrArg Prod.fst h'
      have h2 : pr.2 = u2 := congrArg Prod.snd h'
      right
      simp only [Bool.and_eq_true, Bool.not_eq_true'] at hcond
      obtain ⟨⟨hne, hal⟩, hch⟩ := hcond
      refine ⟨pr.1, ?_, h1.symm, hch, ?_, hal⟩
      · rw [hu, h2]
      · intro hnil
        rw [hnil] at hne
        simp at hne
    · rw [if_neg hcond] at h'
      exact Or.inl ⟨(congrArg Prod.fst h').symm, (congrArg Prod.snd h').symm⟩

/-- A failed last-occurrence split means the element is absent. -/
theorem not_mem_of_splitOnLast_none {α : Type} [DecidableEq α] {c : α}
    {s : List α} (h : splitOnLast c s = none) : c ∉ s := by
  intro hm
  obtain ⟨a, b, rfl, hb⟩ := exists_splitOnLast hm
  rw [splitOnLast_append a hb] at h
  exact Option.noConfusion h

/-- Specification of the parameter split. -/
theorem splitParamsFn_spec (u : List Nat) :
    ((splitParamsFn u).2 = [] ∧ (splitParamsFn u).1 = u) ∨
    (u = (splitParamsFn u).1 ++ 59 :: (splitParamsFn u).2 ∧
      47 ∉ (splitParamsFn u).2 ∧ (∀ b ∈ (splitParamsFn u).1, b ∈ u) ∧
      (∀ b ∈ (splitParamsFn u).2, b ∈ u)) := by
  cases hsl : splitOnLast 47 u with
  | some d =>
    cases hsf : splitOnFirst 59 d.2 with
    | some q =>
      have heq : splitParamsFn u = (d.1 ++ 47 :: q.1, q.2) := by
        simp only [splitParamsFn, hsl, hsf]
      obtain ⟨hu, hnd⟩ := splitOnLast_eq_some (a := d.1) (b := d.2) (by rw [hsl])
      obtain ⟨hd2, _⟩ := splitOnFirst_eq_some (a := q.1) (b := q.2) (by rw [hsf])
      rw [heq]
      right
      refine ⟨?_, ?_, ?_, ?_⟩
      · rw [hu, hd2]
        simp
      · intro hm
        have h472 : (47 : Nat) ∈ d.2 := by
          rw [hd2]
          exact List.mem_append.mpr (Or.inr (List.mem_cons_of_mem 59 hm))
        exact hnd h472
      · intro b hb
        have hb' : b ∈ d.1 ++ 47 :: q.1 := hb
        rw [hu]
        rcases List.mem_append.mp hb' with h1 | h2
        · exact List.mem_append.mpr (Or.inl h1)
        · rcases List.mem_cons.mp h2 with rfl | h3
          · exact List.mem_append.mpr (Or.inr (List.mem_cons_self 47 d.2))
          · have h4 : b ∈ d.2 := by
              rw [hd2]
              exact List.mem_append.mpr (Or.inl h3)
            exact List.mem_append.mpr (Or.inr (List.mem_cons_of_mem 47 h4))
      · intro b hb
        have hb' : b ∈ q.2 := hb
        have h4 : b ∈ d.2 := by
          rw [hd2]
          exact List.mem_append.mpr (Or.inr (List.mem_cons_of_mem 59 hb'))
        rw [hu]
        exact List.mem_append.mpr (Or.inr (List.mem_cons_of_mem 47 h4))
    | none =>
      have heq : splitParamsFn u = (u, []) := by
        simp only [splitParamsFn, hsl, hsf]
      rw [heq]
      exact Or.inl ⟨rfl, rfl⟩
  | none =>
    have h47 : 47 ∉ u := not_mem_of_splitOnLast_none (by rw [hsl])
    cases hsf : splitOnFirst 59 u with
    | some q =>
      have heq : splitParamsFn u = (q.1, q.2) := by
        simp only [splitParamsFn, hsl, hsf]
      obtain ⟨hu, _⟩ := splitOnFirst_eq_some (a := q.1) (b := q.2) (by rw [hsf])
      rw [heq]
      right
      refine ⟨hu, ?_, ?_, ?_⟩
      · intro hm
        have h47u : (47 : Nat) ∈ u := by
          rw [hu]
          exact List.mem_append.mpr (Or.inr (List.mem_cons_of_mem 59 hm))
        exact h47 h47u
      · intro b hb
        rw [hu]
        exact List.mem_append.mpr (Or.inl hb)
      · intro b hb
        rw [hu]
        exact List.mem_append.mpr (Or.inr (List.mem_cons_of_mem 59 hb))
    | none =>
      have heq : splitParamsFn u = (u, []) := by
        simp only [splitParamsFn, hsl, hsf]
      rw [heq]
      exact Or.inl ⟨rfl, rfl⟩

/-- The split-at-first-marker-or-nothing combinator used by `urlsplitB` for
the fragment and query components. -/
def splitPair (c : Nat) (s : List Nat) : List Nat × List Nat :=
  match splitOnFirst c s with
  | some q => q
  | none => (s, [])

/-- `urlsplitB` rephrased with `splitPair` (definitional). -/
theorem urlsplitB_eq (url0 : List Nat) :
    urlsplitB url0 =
      (let url1 := removeTabCrLf (lstripC0Space url0)
       let sp := extractScheme url1
       let np := if sp.2.take 2 = [47, 47] then splitNetloc (sp.2.drop 2)
                 else ([], sp.2)
       if bracketMismatch np.1 then none
       else
         let fp := splitPair 35 np.2
         let pq := splitPair 63 fp.1
         some ⟨sp.1, np.1, pq.1, pq.2, fp.2⟩) := rfl

/-- Facts about `splitPair`: the marker is absent from the head part and both
parts come from the input. -/
theorem splitPair_spec (c : Nat) (s : List Nat) :
    c ∉ (splitPair c s).1 ∧ (∀ x ∈ (splitPair c s).1, x ∈ s) ∧
    (∀ x ∈ (splitPair c s).2, x ∈ s) := by
  cases hsp : splitOnFirst c s with
  | none =>
    have heq : splitPair c s = (s, []) := by
      simp only [splitPair, hsp]
    rw [heq]
    exact ⟨not_mem_of_splitOnFirst_none hsp, fun x hx => hx,
           fun x hx => absurd hx (List.not_mem_nil x)⟩
  | some pr =>
    have heq : splitPair c s = pr := by
      simp only [splitPair, hsp]
    rw [heq]
    obtain ⟨_, hnc⟩ := splitOnFirst_eq_some (a := pr.1) (b := pr.2) (by rw [hsp])
    obtain ⟨hm1, hm2⟩ := mem_of_splitOnFirst (a := pr.1) (b := pr.2) (by rw [hsp])
    exact ⟨hnc, hm1, hm2⟩

/-- Invariants of a successful `urlsplitB`. -/
theorem urlsplit_inv {h : List Nat} {r : UrlSplitResult}
    (hr : urlsplitB h = some r) (hv : ∀ b ∈ h, b < 256) :
    58 ∉ r.scheme ∧ lowerBytes r.scheme = r.scheme ∧
    (r.scheme ≠ [] → isAlphaB (r.scheme.headD 0) = true) ∧
    r.scheme.all schemeCharB = true ∧
    (∀ b ∈ r.netloc, netlocStop b = false) ∧
    bracketMismatch r.netloc = false ∧
    (∀ b ∈ r.netloc, ¬(b = 9 ∨ b = 10 ∨ b = 13)) ∧
    35 ∉ r.path ∧ 63 ∉ r.path ∧
    (∀ b ∈ r.path, ¬(b = 9 ∨ b = 10 ∨ b = 13)) ∧
    (∀ b ∈ r.path, b < 256) ∧
    35 ∉ r.query ∧
    (∀ b ∈ r.query, ¬(b = 9 ∨ b = 10 ∨ b = 13)) ∧
    (∀ b ∈ r.fragment, ¬(b = 9 ∨ b = 10 ∨ b = 13)) := by
  rw [urlsplitB_eq] at hr
  dsimp only at hr
  set u1 := removeTabCrLf (lstripC0Space h) with hu1
  have hu1bad : ∀ b ∈ u1, ¬(b = 9 ∨ b = 10 ∨ b = 13) :=
    fun b hb => not_bad_of_removeTabCrLf hb
  have hu1lt : ∀ b ∈ u1, b < 256 :=
    fun b hb => hv b (mem_of_lstripC0Space (mem_of_removeTabCrLf hb))
  rcases hES : extractScheme u1 with ⟨sch, u2⟩
  rw [hES] at hr
  dsimp only at hr
  have hschemeF := extractScheme_spec hES
  have hsch : 58 ∉ sch ∧ lowerBytes sch = sch ∧
      (sch ≠ [] → isAlphaB (sch.headD 0) = true) ∧
      sch.all schemeCharB = true ∧ (∀ b ∈ u2, b ∈ u1) := by
    rcases hschemeF with ⟨hs0, hu2⟩ | ⟨raw, hur, hsl, hrc, hrne, hrh⟩
    · subst hs0
      subst hu2
      exact ⟨List.not_mem_nil 58, rfl, fun hne => absurd rfl hne,
             rfl, fun b hb => hb⟩
    · subst hsl
      have hrawchars : ∀ a ∈ raw, schemeCharB a = true :=
        fun a ha => List.all_eq_true.mp hrc a ha
      refine ⟨?_, ?_, ?_, ?_, ?_⟩
      · intro hm
        obtain ⟨a, ha, hla⟩ := List.mem_map.mp hm
        exact lowerB_ne58 (hrawchars a ha) hla
      · show lowerBytes (lowerBytes raw) = lowerBytes raw
        unfold lowerBytes
        rw [List.map_map]
        exact List.map_congr_left (fun a _ => lowerB_idem a)
      · intro _
        cases hcr : raw with
        | nil => exact absurd hcr hrne
        | cons a t =>
          show isAlphaB ((lowerBytes (a :: t)).headD 0) = true
          show isAlphaB (lowerB a) = true
          apply isAlphaB_lowerB
          rw [hcr] at hrh
          exact hrh
      · apply List.all_eq_true.mpr
        intro b hb
        obtain ⟨a, ha, hla⟩ := List.mem_map.mp hb
        rw [← hla]
        exact schemeCharB_lowerB (hrawchars a ha)
      · intro b hb
        rw [hur]
        exact List.mem_append.mpr (Or.inr (List.mem_cons_of_mem 58 hb))
  obtain ⟨hsch58, hschlow, hschhead, hschchars, hu2mem⟩ := hsch
  have hnp : (∀ b ∈ (if u2.take 2 = [47, 47] then splitNetloc (u2.drop 2)
        else (([] : List Nat), u2)).1, netlocStop b = false) ∧
      (∀ b ∈ (if u2.take 2 = [47, 47] then splitNetloc (u2.drop 2)
        else (([] : List Nat), u2)).1, b ∈ u2) ∧
      (∀ b ∈ (if u2.take 2 = [47, 47] then splitNetloc (u2.drop 2)
        else (([] : List Nat), u2)).2, b ∈ u2) := by
    by_cases hnl2 : u2.take 2 = [47, 47]
    · rw [if_pos hnl2]
      obtain ⟨h1, h2, h3, _⟩ := splitNetloc_spec (u2.drop 2)
      exact ⟨h1, fun b hb => (List.drop_sublist 2 u2).mem (h2 b hb),
             fun b hb => (List.drop_sublist 2 u2).mem (h3 b hb)⟩
    · rw [if_neg hnl2]
      exact ⟨fun b hb => absurd hb (List.not_mem_nil b),
             fun b hb => absurd hb (List.not_mem_nil b),
             fun b hb => hb⟩
  set np := (if u2.take 2 = [47, 47] then splitNetloc (u2.drop 2)
             else (([] : List Nat), u2)) with hnpdef
  obtain ⟨hnl1, hnl2m, hnl3m⟩ := hnp
  by_cases hbm : bracketMismatch np.1 = true
  · rw [if_pos hbm] at hr
    exact Option.noConfusion hr
  · rw [if_neg hbm] at hr
    obtain rfl := (Option.some_inj.mp hr).symm
    obtain ⟨hfp1, hfp2, hfp3⟩ := splitPair_spec 35 np.2
    obtain ⟨hpq1, hpq2, hpq3⟩ := splitPair_spec 63 (splitPair 35 np.2).1
    have hpathmem : ∀ b ∈ (splitPair 63 (splitPair 35 np.2).1).1, b ∈ u1 :=
      fun b hb => hu2mem b (hnl3m b (hfp2 b (hpq2 b hb)))
    have hqmem : ∀ b ∈ (splitPair 63 (splitPair 35 np.2).1).2, b ∈ u1 :=
      fun b hb => hu2mem b (hnl3m b (hfp2 b (hpq3 b hb)))
    have hfmem : ∀ b ∈ (splitPair 35 np.2).2, b ∈ u1 :=
      fun b hb => hu2mem b (hnl3m b (hfp3 b hb))
    refine ⟨hsch58, hschlow, hschhead, hschchars, hnl1, ?_, ?_, ?_, hpq1, ?_, ?_,
            ?_, ?_, ?_⟩
    · exact Bool.not_eq_true _ ▸ hbm
    · exact fun b hb => hu1bad b (hu2mem b (hnl2m b hb))
    · exact fun hm => absurd (hpq2 35 hm) hfp1
    · exact fun b hb => hu1bad b (hpathmem b hb)
    · exact fun b hb => hu1lt b (hpathmem b hb)
    · exact fun hm => absurd (hpq3 35 hm) hfp1
    · exact fun b hb => hu1bad b (hqmem b hb)
    · exact fun b hb => hu1bad b (hfmem b hb)

/-- Invariants of a successful `urlparseB`. -/
theorem parse_inv {h : List Nat} {p : UrlParseResult}
    (hp : urlparseB h = some p) (hv : ∀ b ∈ h, b < 256) :
    58 ∉ p.scheme ∧ lowerBytes p.scheme = p.scheme ∧
    (p.scheme ≠ [] → isAlphaB (p.scheme.headD 0) = true) ∧
    p.scheme.all schemeCharB = true ∧
    (∀ b ∈ p.netloc, netlocStop b = false) ∧
    bracketMismatch p.netloc = false ∧
    (∀ b ∈ p.netloc, ¬(b = 9 ∨ b = 10 ∨ b = 13)) ∧
    (∀ b ∈ p.path, b < 256) ∧
    47 ∉ p.params ∧ 63 ∉ p.params ∧ 35 ∉ p.params ∧
    (∀ b ∈ p.params, ¬(b = 9 ∨ b = 10 ∨ b = 13)) ∧
    (p.params ≠ [] → usesParamsList.contains p.scheme = true) ∧
    35 ∉ p.query ∧ (∀ b ∈ p.query, ¬(b = 9 ∨ b = 10 ∨ b = 13)) ∧
    (∀ b ∈ p.fragment, ¬(b = 9 ∨ b = 10 ∨ b = 13)) := by
  unfold urlparseB at hp
  cases hsp : urlsplitB h with
  | none => rw [hsp] at hp; exact Option.noConfusion hp
  | some r =>
    rw [hsp] at hp
    have hp' : (if (usesParamsList.contains r.scheme && r.path.contains 59) = true then
        some (⟨r.scheme, r.netloc, (splitParamsFn r.path).1, (splitParamsFn r.path).2,
          r.query, r.fragment⟩ : UrlParseResult)
      else some ⟨r.scheme, r.netloc, r.path, [], r.query, r.fragment⟩) = some p := hp
    obtain ⟨i1, i2, i3, i4, i5, i6, i7, i8, i9, i10, i11, i12, i13, i14⟩ :=
      urlsplit_inv hsp hv
    by_cases hg : (usesParamsList.contains r.scheme && r.path.contains 59) = true
    · rw [if_pos hg] at hp'
      obtain rfl := (Option.some_inj.mp hp').symm
      rcases splitParamsFn_spec r.path with ⟨hb0, hb1⟩ | ⟨_, hp47, hm1, hm2⟩
      · refine ⟨i1, i2, i3, i4, i5, i6, i7, ?_, ?_, ?_, ?_, ?_, ?_, i12, i13, i14⟩
        · intro b hb
          exact i11 b (by rw [← hb1]; exact hb)
        · rw [hb0]; exact List.not_mem_nil 47
        · rw [hb0]; exact List.not_mem_nil 63
        · rw [hb0]; exact List.not_mem_nil 35
        · rw [hb0]; exact fun b hb => absurd hb (List.not_mem_nil b)
        · rw [hb0]; exact fun hne => absurd rfl hne
      · refine ⟨i1, i2, i3, i4, i5, i6, i7, ?_, hp47, ?_, ?_, ?_, ?_, i12, i13, i14⟩
        · exact fun b hb => i11 b (hm1 b hb)
        · exact fun hm => i9 (hm2 63 hm)
        · exact fun hm => i8 (hm2 35 hm)
        · exact fun b hb => i10 b (hm2 b hb)
        · exact fun _ => ((Bool.and_eq_true _ _).mp hg).1
    · rw [if_neg hg] at hp'
      obtain rfl := (Option.some_inj.mp hp').symm
      exact ⟨i1, i2, i3, i4, i5, i6, i7, i11, List.not_mem_nil 47,
             List.not_mem_nil 63, List.not_mem_nil 35,
             fun b hb => absurd hb (List.not_mem_nil b),
             fun hne => absurd rfl hne, i12, i13, i14⟩

/-- Normal form of `urlunparseB`: scheme part, authority-and-path part, query
part and fragment part, concatenated. -/
theorem urlunparseB_decompose (p : UrlParseResult) :
    urlunparseB p =
      (if !p.scheme.isEmpty then p.scheme ++ [58] else []) ++
      ((let wp := if !p.params.isEmpty then p.path ++ 59 :: p.params else p.path
        if !p.netloc.isEmpty ||
           (!p.scheme.isEmpty && usesNetlocList.contains p.scheme &&
            wp.take 2 ≠ [47, 47]) then
          [47, 47] ++ p.netloc ++
            (if !wp.isEmpty && wp.take 1 ≠ [47] then 47 :: wp else wp)
        else wp) ++
       ((if !p.query.isEmpty then 63 :: p.query else []) ++
        (if !p.fragment.isEmpty then 35 :: p.fragment else []))) := by
  unfold urlunparseB urlunsplitB
  dsimp only
  split_ifs <;> simp [List.append_assoc]

/-- Pointwise property over an append. -/
theorem memP_append {α : Type} {P : α → Prop} {a b : List α}
    (ha : ∀ x ∈ a, P x) (hb : ∀ x ∈ b, P x) : ∀ x ∈ a ++ b, P x := by
  intro x hx
  rcases List.mem_append.mp hx with h | h
  · exact ha x h
  · exact hb x h

/-- Pointwise property over a cons. -/
theorem memP_cons {α : Type} {P : α → Prop} {c : α} {t : List α}
    (hc : P c) (ht : ∀ x ∈ t, P x) : ∀ x ∈ c :: t, P x := by
  intro x hx
  rcases List.mem_cons.mp hx with rfl | h
  · exact hc
  · exact ht x h

/-- Head of an append with nonempty left part. -/
theorem head?_append_left {α : Type} (a b : List α) (h : a ≠ []) :
    (a ++ b).head? = a.head? := by
  cases a with
  | nil => exact absurd rfl h
  | cons x t => rfl

/-- Letters lie above the C0-control-or-space range. -/
theorem isAlphaB_gt32 {b : Nat} (h : isAlphaB b = true) : ¬ b ≤ 32 := by
  unfold isAlphaB isUpperB isLowerB at h
  simp only [Bool.or_eq_true, decide_eq_true_eq] at h
  omega

/-- Scheme characters are never tab, CR or LF. -/
theorem schemeCharB_not_bad {b : Nat} (h : schemeCharB b = true) :
    ¬(b = 9 ∨ b = 10 ∨ b = 13) := by
  intro hbad
  rcases hbad with rfl | rfl | rfl <;> exact absurd h (by decide)

/-- Computation of `splitPair` when the marker occurs. -/
theorem splitPair_append {c : Nat} {a : List Nat} (b : List Nat) (h : c ∉ a) :
    splitPair c (a ++ c :: b) = (a, b) := by
  simp only [splitPair, splitOnFirst_append b h]

/-- Computation of `splitPair` when the marker is absent. -/
theorem splitPair_no {c : Nat} {s : List Nat} (h : c ∉ s) :
    splitPair c s = (s, []) := by
  simp only [splitPair, splitOnFirst_eq_none h]

/-- Computation of the parameter split on a marked decomposition. -/
theorem splitParamsFn_append {A b : List Nat} (h59 : 59 ∉ A) (h47 : 47 ∉ b) :
    splitParamsFn (A ++ 59 :: b) = (A, b) := by
  by_cases h47A : 47 ∈ A
  · obtain ⟨B, C, rfl, hC⟩ := exists_splitOnLast h47A
    have hnotin : (47 : Nat) ∉ C ++ 59 :: b := by
      intro hm
      rcases List.mem_append.mp hm with h1 | h2
      · exact hC h1
      · rcases List.mem_cons.mp h2 with he | h3
        · exact absurd he (by decide)
        · exact h47 h3
    have hl : splitOnLast 47 ((B ++ 47 :: C) ++ 59 :: b) = some (B, C ++ 59 :: b) := by
      have hassoc : (B ++ 47 :: C) ++ 59 :: b = B ++ 47 :: (C ++ 59 :: b) := by simp
      rw [hassoc]
      exact splitOnLast_append B hnotin
    have hf : splitOnFirst 59 (C ++ 59 :: b) = some (C, b) :=
      splitOnFirst_append b (fun hm => h59 (List.mem_append.mpr
        (Or.inr (List.mem_cons_of_mem 47 hm))))
    simp only [splitParamsFn, hl, hf]
  · have hnotin : (47 : Nat) ∉ A ++ 59 :: b := by
      intro hm
      rcases List.mem_append.mp hm with h1 | h2
      · exact h47A h1
      · rcases List.mem_cons.mp h2 with he | h3
        · exact absurd he (by decide)
        · exact h47 h3
    have hl : splitOnLast 47 (A ++ 59 :: b) = none := splitOnLast_eq_none hnotin
    have hf : splitOnFirst 59 (A ++ 59 :: b) = some (A, b) :=
      splitOnFirst_append b h59
    simp only [splitParamsFn, hl, hf]

/-- The two-byte slash marker cannot appear at the front of `wp ++ X` when it
is not at the front of `wp` and `X` does not start with a slash. -/
theorem take2_ne_of {wp X : List Nat} (h1 : wp.take 2 ≠ [47, 47])
    (h2 : ∀ b t, X = b :: t → b ≠ 47) :
    (wp ++ X).take 2 ≠ [47, 47] := by
  intro hc
  match wp, hc with
  | x :: y :: t, hc =>
    exact h1 (by simpa using hc)
  | [x], hc =>
    cases hX : X with
    | nil => rw [hX] at hc; simp at hc
    | cons b t =>
      rw [hX] at hc
      have hx : x = 47 ∧ b = 47 := by simpa using hc
      exact h2 b t hX hx.2
  | [], hc =>
    cases hX : X with
    | nil => rw [hX] at hc; simp at hc
    | cons b t =>
      rw [hX] at hc
      have hb : b = 47 := by
        cases t with
        | nil => simp at hc
        | cons c t2 => exact (by simpa using hc : b = 47 ∧ c = 47).1
      exact h2 b t hX hb

/-- Emptiness test of a nonempty list. -/
theorem isEmpty_false_of_ne {α : Type} {l : List α} (h : l ≠ []) :
    l.isEmpty = false := by
  cases l with
  | nil => exact absurd rfl h
  | cons a t => rfl

/-- Nonemptiness from a false emptiness test. -/
theorem ne_of_isEmpty_false {α : Type} {l : List α} (h : l.isEmpty = false) :
    l ≠ [] := by
  cases l with
  | nil => exact absurd h (by simp)
  | cons a t => exact List.cons_ne_nil a t

/-- Absence from an append with a distinguished separator. -/
theorem not_mem_acons {c m : Nat} {A b : List Nat} (hA : c ∉ A) (hm : c ≠ m)
    (hb : c ∉ b) : c ∉ A ++ m :: b := by
  intro hmem
  rcases List.mem_append.mp hmem with h1 | h2
  · exact hA h1
  · rcases List.mem_cons.mp h2 with he | h3
    · exact hm he
    · exact hb h3

/-- Containment test of an absent element. -/
theorem contains_false_of {c : Nat} {A : List Nat} (h : c ∉ A) :
    A.contains c = false := by
  cases hc : A.contains c
  · rfl
  · exact absurd (by simpa using hc) h

/-- Containment test of a present element. -/
theorem contains_true_of {c : Nat} {A : List Nat} (h : c ∈ A) :
    A.contains c = true := by
  simpa using h

/-- Quote images are byte strings. -/
theorem quoteB_lt {z : List Nat} (hz : ∀ b ∈ z, b < 256) :
    ∀ b ∈ quoteB z, b < 256 := by
  intro b hb
  rcases mem_quoteB hz hb with h | h
  · unfold safeB isAlnumB isAlphaB isUpperB isLowerB isDigitB at h
    simp only [Bool.or_eq_true, decide_eq_true_eq] at h
    omega
  · omega

/-- Fragment and query reattachment is undone by the two tail splits. -/
theorem splitPair_fq {A q f qt ft : List Nat} (hA35 : 35 ∉ A) (hA63 : 63 ∉ A)
    (hq35 : 35 ∉ q)
    (hqt : (q ≠ [] ∧ qt = 63 :: q) ∨ (q = [] ∧ qt = []))
    (hft : (f ≠ [] ∧ ft = 35 :: f) ∨ (f = [] ∧ ft = [])) :
    splitPair 35 (A ++ (qt ++ ft)) = (A ++ qt, f) ∧
    splitPair 63 (A ++ qt) = (A, q) := by
  have h35qt : 35 ∉ A ++ qt := by
    intro hm
    rcases List.mem_append.mp hm with h | h
    · exact hA35 h
    · rcases hqt with ⟨_, hq2⟩ | ⟨_, hq2⟩
      · rw [hq2] at h
        rcases List.mem_cons.mp h with he | he
        · exact absurd he (by decide)
        · exact hq35 he
      · rw [hq2] at h
        exact absurd h (List.not_mem_nil 35)
  constructor
  · rcases hft with ⟨hf0, hf2⟩ | ⟨hf0, hf2⟩
    · rw [hf2]
      have ha : A ++ (qt ++ 35 :: f) = (A ++ qt) ++ 35 :: f := by
        rw [List.append_assoc]
      rw [ha]
      exact splitPair_append f h35qt
    · subst hf0
      rw [hf2, List.append_nil]
      exact splitPair_no h35qt
  · rcases hqt with ⟨hq0, hq2⟩ | ⟨hq0, hq2⟩
    · rw [hq2]
      exact splitPair_append q hA63
    · subst hq0
      rw [hq2, List.append_nil]
      exact splitPair_no hA63

/-- Parameter recovery by urlparseB on top of a given urlsplitB result. -/
theorem urlparse_of_split {h : List Nat} {s n A par q f u3 : List Nat}
    (hsp : urlsplitB h = some ⟨s, n, u3, q, f⟩)
    (hu3 : (par ≠ [] ∧ u3 = A ++ 59 :: par) ∨ (par = [] ∧ u3 = A))
    (h59 : 59 ∉ A) (h47 : 47 ∉ par)
    (huse : par ≠ [] → usesParamsList.contains s = true) :
    urlparseB h = some ⟨s, n, A, par, q, f⟩ := by
  simp only [urlparseB, hsp]
  rcases hu3 with ⟨hpar, hu⟩ | ⟨hpar, hu⟩
  · subst hu
    have h59mem : (59 : Nat) ∈ A ++ 59 :: par :=
      List.mem_append.mpr (Or.inr (List.mem_cons_self 59 par))
    have hg : (usesParamsList.contains s && (A ++ 59 :: par).contains 59) = true := by
      rw [huse hpar, contains_true_of h59mem]
      rfl
    rw [hg, if_pos rfl, splitParamsFn_append h59 h47]
  · subst hpar
    subst hu
    have hg : (usesParamsList.contains s && u3.contains 59) = false := by
      rw [contains_false_of h59, Bool.and_false]
    rw [hg]
    rfl

/-- Computation of urlsplitB on a sanitized scheme-authority-path composite. -/
theorem urlsplitB_authority {u0 sch n adj qt ft q f : List Nat}
    (hsan : removeTabCrLf (lstripC0Space u0) = u0)
    (hsch : extractScheme u0 = (sch, 47 :: 47 :: (n ++ (adj ++ (qt ++ ft)))))
    (hnstop : ∀ b ∈ n, netlocStop b = false)
    (hnbr : bracketMismatch n = false)
    (hXcase : adj ++ (qt ++ ft) = [] ∨
      ∃ b t, adj ++ (qt ++ ft) = b :: t ∧ netlocStop b = true)
    (h35 : 35 ∉ adj) (h63 : 63 ∉ adj) (hq35 : 35 ∉ q)
    (hqt : (q ≠ [] ∧ qt = 63 :: q) ∨ (q = [] ∧ qt = []))
    (hft : (f ≠ [] ∧ ft = 35 :: f) ∨ (f = [] ∧ ft = [])) :
    urlsplitB u0 = some ⟨sch, n, adj, q, f⟩ := by
  rw [urlsplitB_eq]
  dsimp only
  rw [hsan, hsch]
  dsimp only
  rw [if_pos (show (47 :: 47 :: (n ++ (adj ++ (qt ++ ft)))).take 2 = [47, 47] from rfl)]
  rw [show (47 :: 47 :: (n ++ (adj ++ (qt ++ ft)))).drop 2 = n ++ (adj ++ (qt ++ ft)) from rfl]
  rw [splitNetloc_append hnstop hXcase]
  dsimp only
  rw [if_neg (show ¬ bracketMismatch n = true from by simp [hnbr])]
  rw [(splitPair_fq h35 h63 hq35 hqt hft).1]
  dsimp only
  rw [(splitPair_fq h35 h63 hq35 hqt hft).2]

/-- Computation of urlsplitB on a sanitized composite without authority. -/
theorem urlsplitB_no_authority {u0 sch wp qt ft q f : List Nat}
    (hsan : removeTabCrLf (lstripC0Space u0) = u0)
    (hsch : extractScheme u0 = (sch, wp ++ (qt ++ ft)))
    (htk : (wp ++ (qt ++ ft)).take 2 ≠ [47, 47])
    (h35 : 35 ∉ wp) (h63 : 63 ∉ wp) (hq35 : 35 ∉ q)
    (hqt : (q ≠ [] ∧ qt = 63 :: q) ∨ (q = [] ∧ qt = []))
    (hft : (f ≠ [] ∧ ft = 35 :: f) ∨ (f = [] ∧ ft = [])) :
    urlsplitB u0 = some ⟨sch, [], wp, q, f⟩ := by
  rw [urlsplitB_eq]
  dsimp only
  rw [hsan, hsch]
  dsimp only
  rw [if_neg htk]
  dsimp only
  rw [if_neg (show ¬ bracketMismatch [] = true from by decide)]
  rw [(splitPair_fq h35 h63 hq35 hqt hft).1]
  dsimp only
  rw [(splitPair_fq h35 h63 hq35 hqt hft).2]

/-- Reparse stability: unparsing parse-shaped components whose path is a quote
image parses back to components whose re-unparse gives the same string, as
long as the path does not start with two slashes while the netloc is empty. -/
theorem reparse_master (s n P par q f : List Nat)
    (hfix : quoteB (unquoteB P) = P) (hPlt : ∀ b ∈ P, b < 256)
    (hs58 : 58 ∉ s) (hslow : lowerBytes s = s)
    (hshead : s ≠ [] → isAlphaB (s.headD 0) = true)
    (hschars : s.all schemeCharB = true)
    (hnstop : ∀ b ∈ n, netlocStop b = false)
    (hnbr : bracketMismatch n = false)
    (hnbad : ∀ b ∈ n, ¬(b = 9 ∨ b = 10 ∨ b = 13))
    (hpar47 : 47 ∉ par) (hpar63 : 63 ∉ par) (hpar35 : 35 ∉ par)
    (hparbad : ∀ b ∈ par, ¬(b = 9 ∨ b = 10 ∨ b = 13))
    (hparuse : par ≠ [] → usesParamsList.contains s = true)
    (hq35 : 35 ∉ q) (hqbad : ∀ b ∈ q, ¬(b = 9 ∨ b = 10 ∨ b = 13))
    (hfbad : ∀ b ∈ f, ¬(b = 9 ∨ b = 10 ∨ b = 13))
    (hshape : ¬(n = [] ∧ P.take 2 = [47, 47])) :
    ∃ p' : UrlParseResult,
      urlparseB (urlunparseB ⟨s, n, P, par, q, f⟩) = some p' ∧
      quoteB (unquoteB p'.path) = p'.path ∧
      urlunparseB p' = urlunparseB ⟨s, n, P, par, q, f⟩ := by
  have hz : ∀ b ∈ unquoteB P, b < 256 := mem_unquoteB_lt P hPlt
  have hPdelim : ∀ c : Nat, safeB c = false → c ≠ 37 → c ∉ P := by
    intro c hc h37 hm
    rw [← hfix] at hm
    exact quoteB_no_delim hz hc h37 hm
  have hP58 : 58 ∉ P := hPdelim 58 (by decide) (by decide)
  have hP59 : 59 ∉ P := hPdelim 59 (by decide) (by decide)
  have hP63 : 63 ∉ P := hPdelim 63 (by decide) (by decide)
  have hP35 : 35 ∉ P := hPdelim 35 (by decide) (by decide)
  have hPgt32 : ∀ b ∈ P, ¬ b ≤ 32 := by
    intro b hb
    rw [← hfix] at hb
    exact quoteB_gt32 hz hb
  have hPbad : ∀ b ∈ P, ¬(b = 9 ∨ b = 10 ∨ b = 13) := by
    intro b hb hcon
    have h32 := hPgt32 b hb
    rcases hcon with rfl | rfl | rfl <;> omega
  obtain ⟨wp, hwpdef⟩ : ∃ u, u = if !par.isEmpty then P ++ 59 :: par else P :=
    ⟨_, rfl⟩
  obtain ⟨adj, hadjdef⟩ :
      ∃ u, u = if !wp.isEmpty && wp.take 1 ≠ [47] then 47 :: wp else wp :=
    ⟨_, rfl⟩
  obtain ⟨qt, hqtdef⟩ : ∃ u, u = if !q.isEmpty then 63 :: q else [] := ⟨_, rfl⟩
  obtain ⟨ft, hftdef⟩ : ∃ u, u = if !f.isEmpty then 35 :: f else [] := ⟨_, rfl⟩
  obtain ⟨spart, hspartdef⟩ :
      ∃ u, u = if !s.isEmpty then s ++ [58] else [] := ⟨_, rfl⟩
  have hwpeq : (par ≠ [] ∧ wp = P ++ 59 :: par) ∨ (par = [] ∧ wp = P) := by
    rw [hwpdef]
    cases par with
    | nil => exact Or.inr ⟨rfl, rfl⟩
    | cons a t => exact Or.inl ⟨List.cons_ne_nil a t, rfl⟩
  have hqtcase : (q ≠ [] ∧ qt = 63 :: q) ∨ (q = [] ∧ qt = []) := by
    rw [hqtdef]
    cases q with
    | nil => exact Or.inr ⟨rfl, rfl⟩
    | cons a t => exact Or.inl ⟨List.cons_ne_nil a t, rfl⟩
  have hftcase : (f ≠ [] ∧ ft = 35 :: f) ∨ (f = [] ∧ ft = []) := by
    rw [hftdef]
    cases f with
    | nil => exact Or.inr ⟨rfl, rfl⟩
    | cons a t => exact Or.inl ⟨List.cons_ne_nil a t, rfl⟩
  have hspcase : (s ≠ [] ∧ spart = s ++ [58]) ∨ (s = [] ∧ spart = []) := by
    rw [hspartdef]
    cases s with
    | nil => exact Or.inr ⟨rfl, rfl⟩
    | cons a t => exact Or.inl ⟨List.cons_ne_nil a t, rfl⟩
  have hadjcase :
      (adj = 47 :: wp ∧ wp ≠ [] ∧ wp.take 1 ≠ [47]) ∨
      (adj = wp ∧ (wp = [] ∨ wp.take 1 = [47])) := by
    rw [hadjdef]
    split_ifs with hc
    · simp only [Bool.and_eq_true, Bool.not_eq_true', decide_eq_true_eq] at hc
      exact Or.inl ⟨rfl, ne_of_isEmpty_false hc.1, hc.2⟩
    · refine Or.inr ⟨rfl, ?_⟩
      by_cases h1 : wp = []
      · exact Or.inl h1
      · right
        by_contra h2
        exact hc (by simp [isEmpty_false_of_ne h1, h2])
  have hadjnilor : adj = [] ∨ ∃ t, adj = 47 :: t := by
    rcases hadjcase with ⟨ha, _, _⟩ | ⟨ha, hcase⟩
    · exact Or.inr ⟨wp, ha⟩
    · rcases hcase with hw0 | hw1
      · exact Or.inl (by rw [ha, hw0])
      · right
        refine ⟨wp.tail, ?_⟩
        rw [ha]
        cases wp with
        | nil => simp at hw1
        | cons x t =>
          have hx : x = 47 := by simpa using hw1
          rw [hx]
          rfl
  have hadjsub : ∀ b ∈ adj, b = 47 ∨ b ∈ wp := by
    intro b hb
    rcases hadjcase with ⟨ha, _, _⟩ | ⟨ha, _⟩
    · rw [ha] at hb
      rcases List.mem_cons.mp hb with h | h
      · exact Or.inl h
      · exact Or.inr h
    · rw [ha] at hb
      exact Or.inr hb
  have hwp35 : 35 ∉ wp := by
    rcases hwpeq with ⟨_, hw⟩ | ⟨_, hw⟩ <;> rw [hw]
    · exact not_mem_acons hP35 (by decide) hpar35
    · exact hP35
  have hwp63 : 63 ∉ wp := by
    rcases hwpeq with ⟨_, hw⟩ | ⟨_, hw⟩ <;> rw [hw]
    · exact not_mem_acons hP63 (by decide) hpar63
    · exact hP63
  have hwpbad : ∀ b ∈ wp, ¬(b = 9 ∨ b = 10 ∨ b = 13) := by
    rcases hwpeq with ⟨_, hw⟩ | ⟨_, hw⟩ <;> rw [hw]
    · exact memP_append hPbad (memP_cons (by omega) hparbad)
    · exact hPbad
  have hwphead : ∀ b t, wp = b :: t → ¬ b ≤ 32 := by
    rcases hwpeq with ⟨_, hw⟩ | ⟨_, hw⟩ <;> rw [hw] <;> intro b t hbt
    · cases P with
      | nil =>
        rw [List.nil_append] at hbt
        injection hbt with h1 _
        omega
      | cons x tp =>
        rw [List.cons_append] at hbt
        injection hbt with h1 _
        subst h1
        exact hPgt32 x (List.mem_cons_self x tp)
    · exact hPgt32 b (by rw [hbt]; exact List.mem_cons_self b t)
  have hadj35 : 35 ∉ adj := by
    intro hm
    rcases hadjsub 35 hm with h | h
    · omega
    · exact hwp35 h
  have hadj63 : 63 ∉ adj := by
    intro hm
    rcases hadjsub 63 hm with h | h
    · omega
    · exact hwp63 h
  have hadjbad : ∀ b ∈ adj, ¬(b = 9 ∨ b = 10 ∨ b = 13) := by
    intro b hb
    rcases hadjsub b hb with h | h
    · omega
    · exact hwpbad b h
  have hqtbad : ∀ b ∈ qt, ¬(b = 9 ∨ b = 10 ∨ b = 13) := by
    rcases hqtcase with ⟨_, hq2⟩ | ⟨_, hq2⟩ <;> rw [hq2]
    · exact memP_cons (by omega) hqbad
    · intro b hb
      exact absurd hb (List.not_mem_nil b)
  have hftbad : ∀ b ∈ ft, ¬(b = 9 ∨ b = 10 ∨ b = 13) := by
    rcases hftcase with ⟨_, hf2⟩ | ⟨_, hf2⟩ <;> rw [hf2]
    · exact memP_cons (by omega) hfbad
    · intro b hb
      exact absurd hb (List.not_mem_nil b)
  have hspbad : ∀ b ∈ spart, ¬(b = 9 ∨ b = 10 ∨ b = 13) := by
    rcases hspcase with ⟨_, hsp2⟩ | ⟨_, hsp2⟩ <;> rw [hsp2]
    · refine memP_append ?_ ?_
      · intro b hb
        exact schemeCharB_not_bad ((List.all_eq_true.mp hschars) b hb)
      · intro b hb
        have hb58 : b = 58 := by simpa using hb
        omega
    · intro b hb
      exact absurd hb (List.not_mem_nil b)
  have hwptake2 : wp.take 2 = [47, 47] → P.take 2 = [47, 47] := by
    rcases hwpeq with ⟨_, hw⟩ | ⟨_, hw⟩ <;> rw [hw]
    · intro h2
      by_contra h3
      exact take2_ne_of h3
        (fun b t hbt => by injection hbt with h4 _; omega) h2
    · exact fun h2 => h2
  have hqf47 : ∀ b t, qt ++ ft = b :: t → b ≠ 47 := by
    rcases hqtcase with ⟨_, hq2⟩ | ⟨_, hq2⟩
    · rw [hq2]
      intro b t hbt
      rw [show (63 :: q) ++ ft = 63 :: (q ++ ft) from rfl] at hbt
      injection hbt with h1 _
      omega
    · rw [hq2, List.nil_append]
      rcases hftcase with ⟨_, hf2⟩ | ⟨_, hf2⟩
      · rw [hf2]
        intro b t hbt
        injection hbt with h1 _
        omega
      · rw [hf2]
        intro b t hbt
        exact absurd hbt (by simp)
  have hdec := urlunparseB_decompose ⟨s, n, P, par, q, f⟩
  dsimp only at hdec
  rw [← hwpdef, ← hadjdef, ← hqtdef, ← hftdef, ← hspartdef] at hdec
  split_ifs at hdec with hC
  · -- authority branch of the unparse
    have hCsem : n ≠ [] ∨ (s ≠ [] ∧ usesNetlocList.contains s = true ∧
        wp.take 2 ≠ [47, 47]) := by
      simp only [Bool.or_eq_true, Bool.and_eq_true, Bool.not_eq_true',
        decide_eq_true_eq] at hC
      rcases hC with h | ⟨⟨h1, h2⟩, h3⟩
      · exact Or.inl (ne_of_isEmpty_false h)
      · exact Or.inr ⟨ne_of_isEmpty_false h1, h2, h3⟩
    obtain ⟨A, hAfix, hA59, hAadj⟩ :
        ∃ A : List Nat, quoteB (unquoteB A) = A ∧ 59 ∉ A ∧
          ((par ≠ [] ∧ adj = A ++ 59 :: par) ∨ (par = [] ∧ adj = A)) := by
      rcases hadjcase with ⟨ha, _, _⟩ | ⟨ha, _⟩
      · refine ⟨47 :: P, ?_, ?_, ?_⟩
        · rw [unquoteB_cons47, quoteB_cons47, hfix]
        · intro hm
          rcases List.mem_cons.mp hm with h | h
          · exact absurd h (by decide)
          · exact hP59 h
        · rcases hwpeq with ⟨hp0, hw⟩ | ⟨hp0, hw⟩
          · refine Or.inl ⟨hp0, ?_⟩
            rw [ha, hw]
            rfl
          · refine Or.inr ⟨hp0, ?_⟩
            rw [ha, hw]
      · refine ⟨P, hfix, hP59, ?_⟩
        rcases hwpeq with ⟨hp0, hw⟩ | ⟨hp0, hw⟩
        · refine Or.inl ⟨hp0, ?_⟩
          rw [ha, hw]
        · refine Or.inr ⟨hp0, ?_⟩
          rw [ha, hw]
    have hdec1 : urlunparseB ⟨s, n, P, par, q, f⟩ =
        spart ++ (47 :: 47 :: (n ++ (adj ++ (qt ++ ft)))) := by
      rw [hdec]
      simp [List.append_assoc]
    have hXcase : adj ++ (qt ++ ft) = [] ∨
        ∃ b t, adj ++ (qt ++ ft) = b :: t ∧ netlocStop b = true := by
      rcases hadjnilor with ha0 | ⟨t, ha0⟩
      · rw [ha0, List.nil_append]
        rcases hqtcase with ⟨_, hq2⟩ | ⟨_, hq2⟩
        · rw [hq2]
          exact Or.inr ⟨63, q ++ ft, rfl, by decide⟩
        · rw [hq2, List.nil_append]
          rcases hftcase with ⟨_, hf2⟩ | ⟨_, hf2⟩
          · rw [hf2]
            exact Or.inr ⟨35, f, rfl, by decide⟩
          · rw [hf2]
            exact Or.inl rfl
      · rw [ha0]
        exact Or.inr ⟨47, t ++ (qt ++ ft), rfl, by decide⟩
    have hbadall : ∀ b ∈ spart ++ (47 :: 47 :: (n ++ (adj ++ (qt ++ ft)))),
        ¬(b = 9 ∨ b = 10 ∨ b = 13) :=
      memP_append hspbad (memP_cons (by omega) (memP_cons (by omega)
        (memP_append hnbad (memP_append hadjbad (memP_append hqtbad hftbad)))))
    have hheadok : ∀ b,
        (spart ++ (47 :: 47 :: (n ++ (adj ++ (qt ++ ft))))).head? = some b →
        ¬ b ≤ 32 := by
      intro b hb
      rcases hspcase with ⟨hs0, hsp2⟩ | ⟨hs0, hsp2⟩
      · rw [hsp2, head?_append_left _ _ (by simp),
          head?_append_left _ _ hs0] at hb
        cases s with
        | nil => exact absurd rfl hs0
        | cons a t =>
          have hba : a = b := by simpa using hb
          subst hba
          exact isAlphaB_gt32 (by simpa using hshead hs0)
      · rw [hsp2, List.nil_append] at hb
        have hb47 : (47 : Nat) = b := by simpa using hb
        omega
    have hsan : removeTabCrLf (lstripC0Space
        (spart ++ (47 :: 47 :: (n ++ (adj ++ (qt ++ ft)))))) =
        spart ++ (47 :: 47 :: (n ++ (adj ++ (qt ++ ft)))) := by
      rw [lstripC0Space_eq_self hheadok, removeTabCrLf_eq_self hbadall]
    have hsch : extractScheme
        (spart ++ (47 :: 47 :: (n ++ (adj ++ (qt ++ ft))))) =
        (s, 47 :: 47 :: (n ++ (adj ++ (qt ++ ft)))) := by
      rcases hspcase with ⟨hs0, hsp2⟩ | ⟨hs0, hsp2⟩
      · rw [hsp2, show (s ++ [58]) ++ (47 :: 47 :: (n ++ (adj ++ (qt ++ ft)))) =
            s ++ 58 :: (47 :: 47 :: (n ++ (adj ++ (qt ++ ft)))) from by simp]
        rw [extractScheme_of_scheme _ hs0 hs58 (hshead hs0) hschars, hslow]
      · subst hs0
        rw [hsp2, List.nil_append]
        exact extractScheme_head_not_alpha (by
          intro b hb
          have hb47 : (47 : Nat) = b := by simpa using hb
          subst hb47
          decide)
    have hsplit : urlsplitB (urlunparseB ⟨s, n, P, par, q, f⟩) =
        some ⟨s, n, adj, q, f⟩ := by
      rw [hdec1]
      exact urlsplitB_authority hsan hsch hnstop hnbr hXcase hadj35 hadj63
        hq35 hqtcase hftcase
    have hparse : urlparseB (urlunparseB ⟨s, n, P, par, q, f⟩) =
        some ⟨s, n, A, par, q, f⟩ :=
      urlparse_of_split hsplit hAadj hA59 hpar47 hparuse
    refine ⟨⟨s, n, A, par, q, f⟩, hparse, hAfix, ?_⟩
    have hwp2 : (if !par.isEmpty then A ++ 59 :: par else A) = adj := by
      rcases hAadj with ⟨hp0, he⟩ | ⟨hp0, he⟩
      · rw [he]
        cases par with
        | nil => exact absurd rfl hp0
        | cons a t => rfl
      · subst hp0
        rw [he]
        rfl
    have hadjself :
        (if !adj.isEmpty && adj.take 1 ≠ [47] then 47 :: adj else adj) = adj := by
      rcases hadjnilor with ha0 | ⟨t, ha0⟩ <;> rw [ha0]
      · rfl
      · rfl
    have hCif : (if !n.isEmpty || (!s.isEmpty && usesNetlocList.contains s &&
        adj.take 2 ≠ [47, 47]) then [47, 47] ++ n ++ adj else adj) =
        [47, 47] ++ n ++ adj := by
      split_ifs with hco
      · rfl
      · exfalso
        apply hco
        rcases hCsem with h | ⟨h1, h2, h3⟩
        · simp [isEmpty_false_of_ne h]
        · have h4 : adj.take 2 ≠ [47, 47] := by
            rcases hadjcase with ⟨ha, _, h5⟩ | ⟨ha, _⟩
            · rw [ha]
              intro hcon
              apply h5
              have h6 : (47 :: wp).take 2 = 47 :: wp.take 1 := rfl
              rw [h6] at hcon
              injection hcon with h6b h7
            · rw [ha]
              exact h3
          simp [isEmpty_false_of_ne h1, h2, h4]
          exact Or.inr (by simpa using h2)
    rw [urlunparseB_decompose ⟨s, n, A, par, q, f⟩]
    dsimp only
    rw [hwp2, hadjself, hCif, ← hqtdef, ← hftdef, ← hspartdef, hdec]
  · -- no authority marker in the unparse
    have hCn : n = [] := by
      by_contra hne
      exact hC (by simp [isEmpty_false_of_ne hne])
    subst hCn
    have hwp2ne : wp.take 2 ≠ [47, 47] := fun h2 => hshape ⟨rfl, hwptake2 h2⟩
    have htk : (wp ++ (qt ++ ft)).take 2 ≠ [47, 47] :=
      take2_ne_of hwp2ne hqf47
    have hbadall2 : ∀ b ∈ spart ++ (wp ++ (qt ++ ft)),
        ¬(b = 9 ∨ b = 10 ∨ b = 13) :=
      memP_append hspbad (memP_append hwpbad (memP_append hqtbad hftbad))
    have hheadok2 : ∀ b, (spart ++ (wp ++ (qt ++ ft))).head? = some b →
        ¬ b ≤ 32 := by
      intro b hb
      rcases hspcase with ⟨hs0, hsp2⟩ | ⟨hs0, hsp2⟩
      · rw [hsp2, head?_append_left _ _ (by simp),
          head?_append_left _ _ hs0] at hb
        cases s with
        | nil => exact absurd rfl hs0
        | cons a t =>
          have hba : a = b := by simpa using hb
          subst hba
          exact isAlphaB_gt32 (by simpa using hshead hs0)
      · rw [hsp2, List.nil_append] at hb
        cases wp with
        | cons x t =>
          have hxb : x = b := by simpa using hb
          subst hxb
          exact hwphead x t rfl
        | nil =>
          rw [List.nil_append] at hb
          rcases hqtcase with ⟨_, hq2⟩ | ⟨_, hq2⟩
          · rw [hq2] at hb
            have h63 : (63 : Nat) = b := by simpa using hb
            omega
          · rw [hq2, List.nil_append] at hb
            rcases hftcase with ⟨_, hf2⟩ | ⟨_, hf2⟩
            · rw [hf2] at hb
              have h35 : (35 : Nat) = b := by simpa using hb
              omega
            · rw [hf2] at hb
              simp at hb
    have hsan2 : removeTabCrLf (lstripC0Space (spart ++ (wp ++ (qt ++ ft)))) =
        spart ++ (wp ++ (qt ++ ft)) := by
      rw [lstripC0Space_eq_self hheadok2, removeTabCrLf_eq_self hbadall2]
    have hsch2 : extractScheme (spart ++ (wp ++ (qt ++ ft))) =
        (s, wp ++ (qt ++ ft)) := by
      rcases hspcase with ⟨hs0, hsp2⟩ | ⟨hs0, hsp2⟩
      · rw [hsp2, show (s ++ [58]) ++ (wp ++ (qt ++ ft)) =
            s ++ 58 :: (wp ++ (qt ++ ft)) from by simp]
        rw [extractScheme_of_scheme _ hs0 hs58 (hshead hs0) hschars, hslow]
      · subst hs0
        rw [hsp2, List.nil_append]
        rcases hwpeq with ⟨hp0, hw⟩ | ⟨hp0, hw⟩
        · subst hw
          rw [show (P ++ 59 :: par) ++ (qt ++ ft) =
              P ++ 59 :: (par ++ (qt ++ ft)) from by simp]
          exact extractScheme_blocked 59 _ hP58 (by decide) (by decide)
        · rw [hw]
          rcases hqtcase with ⟨hq0, hq2⟩ | ⟨hq0, hq2⟩
          · subst hq2
            rw [show P ++ (63 :: q ++ ft) = P ++ 63 :: (q ++ ft) from by simp]
            exact extractScheme_blocked 63 _ hP58 (by decide) (by decide)
          · subst hq2
            rw [List.nil_append]
            rcases hftcase with ⟨hf0, hf2⟩ | ⟨hf0, hf2⟩
            · subst hf2
              exact extractScheme_blocked 35 _ hP58 (by decide) (by decide)
            · subst hf2
              rw [List.append_nil]
              exact extractScheme_no_colon hP58
    have hsplit2 : urlsplitB (urlunparseB ⟨s, [], P, par, q, f⟩) =
        some ⟨s, [], wp, q, f⟩ := by
      rw [hdec]
      exact urlsplitB_no_authority hsan2 hsch2 htk hwp35 hwp63 hq35
        hqtcase hftcase
    have hparse2 : urlparseB (urlunparseB ⟨s, [], P, par, q, f⟩) =
        some ⟨s, [], P, par, q, f⟩ :=
      urlparse_of_split hsplit2 hwpeq hP59 hpar47 hparuse
    exact ⟨⟨s, [], P, par, q, f⟩, hparse2, hfix, rfl⟩

/-- C7 counterexample: the href http:////, whose parsed path // is already
the output of the percent-encode-after-decode rewrite, is transformed by the
anchor rule into the different href http://. -/
theorem c7_counterexample :
    urlparseB (bs "http:////") = some ⟨bs "http", [], bs "//", [], [], []⟩ ∧
    quoteB (unquoteB (bs "//")) = bs "//" ∧
    rewriteHref ⟨bs "http", [], bs "//", [], [], []⟩ = bs "http://" ∧
    bs "http://" ≠ bs "http:////" :=
  ⟨by rfl, by rfl, by rfl, by decide⟩

/-- C7 (amended): convert_a rewrites the path component of an allowed href as
percent-encode of percent-decode, and this rewrite is idempotent on every
href whose parse succeeds, except when the rewritten path begins with two
slashes while the netloc is empty: outside that corner, parsing the rewritten
href and rewriting again reproduces the same href byte for byte. -/
theorem c7_theorem (h0 : List Nat) (p : UrlParseResult)
    (hp : urlparseB h0 = some p) (hv : ∀ b ∈ h0, b < 256)
    (hshape : ¬(p.netloc = [] ∧ (quoteB (unquoteB p.path)).take 2 = [47, 47])) :
    ∃ p', urlparseB (rewriteHref p) = some p' ∧
      rewriteHref p' = rewriteHref p := by
  obtain ⟨i1, i2, i3, i4, i5, i6, i7, i8, i9, i10, i11, i12, i13, i14, i15, i16⟩ :=
    parse_inv hp hv
  have hz0 : ∀ b ∈ unquoteB p.path, b < 256 := mem_unquoteB_lt p.path i8
  obtain ⟨p', hp', hfix', hunp⟩ :=
    reparse_master p.scheme p.netloc (quoteB (unquoteB p.path)) p.params
      p.query p.fragment (requote_quote hz0) (quoteB_lt hz0) i1 i2 i3 i4 i5 i6
      i7 i9 i10 i11 i12 i13 i14 i15 i16 hshape
  have hr : rewriteHref p =
      urlunparseB ⟨p.scheme, p.netloc, quoteB (unquoteB p.path), p.params,
        p.query, p.fragment⟩ := by
    unfold rewriteHref
    cases p
    rfl
  refine ⟨p', by rw [hr]; exact hp', ?_⟩
  have hr2 : rewriteHref p' = urlunparseB p' := by
    unfold rewriteHref
    rw [hfix']
  rw [hr2, hunp, ← hr]

/-- Witness for c7_theorem at a concrete http URL with an encoded space. -/
theorem c7_witness :
    urlparseB (bs "http://x/a%20b") =
      some ⟨bs "http", bs "x", bs "/a%20b", [], [], []⟩ ∧
    (∀ b ∈ bs "http://x/a%20b", b < 256) ∧
    ∃ p', urlparseB (rewriteHref ⟨bs "http", bs "x", bs "/a%20b", [], [], []⟩) =
        some p' ∧
      rewriteHref p' = rewriteHref ⟨bs "http", bs "x", bs "/a%20b", [], [], []⟩ :=
  ⟨by rfl, by decide,
   c7_theorem (bs "http://x/a%20b") ⟨bs "http", bs "x", bs "/a%20b", [], [], []⟩
     (by rfl) (by decide) (by decide)⟩

end Markdownify
